import Mathlib

/-!
# draft: the `Scheme` builder and its `ToJSON` export (src/scheme.go)

A shallow embedding of `src/scheme.go`.

* Go's `interface{}` example values are `Option Value`: `none` is the nil
  interface, `some v` a supplied example.
* Go's `map[K]V` is an association list with unique keys (`mapGet`, `mapSet`);
  only lookups and key membership are meaningful, not the list order.
* The pointer `s.activeCase` always points at an element of `s.cases` (it is
  assigned at line 168 and appended at line 182), so it is embedded as the
  index of that element in `s.cases`.
* `sync.Mutex` is a boolean; a call that would block forever on it returns
  `none`.
-/

namespace Draft

/-! ## Types declared outside `src/scheme.go` -/

/-- Modelled from the spec: the declaration of `AccessType` is not in
`src/scheme.go`; §6 describes it as an opaque closed value set that the core
only stores and forwards. -/
abbrev AccessType := String

/-- Modelled from the spec: the declaration of `MethodType` is not in
`src/scheme.go`; §6 describes it as an opaque closed value set that the core
only stores and forwards. -/
abbrev MethodType := String

/-- Modelled from the spec: the declaration of `MimeType` is not in
`src/scheme.go`; §6 describes it as an opaque closed value set that the core
only stores and forwards. -/
abbrev MimeType := String

/-- Modelled from the spec: the declaration of `StatusType` is not in
`src/scheme.go`; §6 describes it as an opaque closed value set (the HTTP
status code) which the core stores, forwards and uses as a map key. -/
abbrev StatusType := Nat

/-- Modelled from the spec: the package `reflect` and the function
`prepareMock` are not in `src/scheme.go`. §6 gives their contract: pure
functions; `Get` catalogues an example value, a catalogue exposes its named
nested field descriptors, `prepareMock` synthesizes a value from a catalogue.
`Get v` stands for `reflect.Get(v, reflect.Options{SnakeCase: true})`, the only
way the source calls it; `Nested` and `Name` are the two fields of
`reflect.Item` that the source reads. -/
structure Reflection (Value Item : Type) where
  Get : Value → Item
  Nested : Item → List Item
  Name : Item → String
  prepareMock : Item → Option Value

/-! ## Go maps -/

/-- Lookup `m[k]` with the comma-ok result folded into the option. -/
def mapGet {K V : Type} [DecidableEq K] : List (K × V) → K → Option V
  | [], _ => none
  | (k', v) :: rest, k => if k' = k then some v else mapGet rest k

/-- Assignment `m[k] = v`: replaces the entry of `k` if there is one, adds one
otherwise. -/
def mapSet {K V : Type} [DecidableEq K] : List (K × V) → K → V → List (K × V)
  | [], k, v => [(k, v)]
  | (k', v') :: rest, k, v =>
    if k' = k then (k, v) :: rest else (k', v') :: mapSet rest k v

/-- The keys of a map. -/
def mapKeys {K V : Type} (m : List (K × V)) : List K := m.map Prod.fst

/-! ## Data model (scheme.go lines 10-74) -/

/-- SchemeCaseHeaders (lines 40-43). -/
structure SchemeCaseHeaders (Value : Type) where
  Request : Option Value
  Response : Option Value
  deriving DecidableEq

/-- SchemeCase (lines 27-37). -/
structure SchemeCase (Value : Type) where
  Name : String
  Description : String
  Access : AccessType
  Status : StatusType
  Method : MethodType
  Consumes : MimeType
  Params : Option Value
  Headers : SchemeCaseHeaders Value
  Body : Option Value
  deriving DecidableEq

/-- Scheme (lines 10-24). `mu` is `true` while the mutex is held; `activeCase`
is `none` for the nil pointer and `some p` for a pointer to `cases[p]`. -/
structure Scheme (Value : Type) where
  mu : Bool
  url : String
  name : String
  descr : String
  project : String
  cases : List (SchemeCase Value)
  defAccess : AccessType
  defMethod : MethodType
  defConsumes : MimeType
  defParams : Option Value
  defBody : Option Value
  defHeaders : SchemeCaseHeaders Value
  activeCase : Option Nat
  deriving DecidableEq

/-- JSONSchemeRequest (lines 63-68). -/
structure JSONSchemeRequest (Item : Type) where
  Method : MethodType
  Consumes : MimeType
  Headers : List (String × Item)
  Params : List (String × Item)
  deriving DecidableEq

/-- JSONSchemeResponse (lines 71-74). -/
structure JSONSchemeResponse (Item : Type) where
  Headers : List (String × Item)
  Body : List (String × Item)
  deriving DecidableEq

/-- JSONSchemeDetail (lines 56-60). -/
structure JSONSchemeDetail (Item : Type) where
  Access : AccessType
  Request : JSONSchemeRequest Item
  Response : JSONSchemeResponse Item
  deriving DecidableEq

/-- JSONScheme (lines 46-53). An element of `Cases` is a `*SchemeCase`: `none`
is the nil pointer `make` fills the slice with. -/
structure JSONScheme (Value Item : Type) where
  URL : String
  Name : String
  Project : String
  Description : String
  Detail : List (StatusType × JSONSchemeDetail Item)
  Cases : List (Option (SchemeCase Value))
  deriving DecidableEq

variable {Value Item : Type}

/-- The zero value `Scheme{}`. -/
def Scheme.zero : Scheme Value :=
  { mu := false, url := "", name := "", descr := "", project := "", cases := [],
    defAccess := "", defMethod := "", defConsumes := "", defParams := none,
    defBody := none, defHeaders := { Request := none, Response := none },
    activeCase := none }

/-- Write through a `*SchemeCase`: `cases[p]` becomes `f cases[p]`. -/
def modifyCase (f : SchemeCase Value → SchemeCase Value) :
    List (SchemeCase Value) → Nat → List (SchemeCase Value)
  | [], _ => []
  | c :: rest, 0 => f c :: rest
  | c :: rest, p + 1 => c :: modifyCase f rest p

/-- The case `*s.activeCase`, when the pointer is not nil. -/
def Scheme.active (s : Scheme Value) : Option (SchemeCase Value) :=
  match s.activeCase with
  | some p => s.cases[p]?
  | none => none

/-! ## Setters (lines 76-161) -/

/-- URL (lines 77-79). -/
def Scheme.URL (s : Scheme Value) (v : String) : Scheme Value :=
  { s with url := v }

/-- Name (lines 82-84). -/
def Scheme.Name (s : Scheme Value) (v : String) : Scheme Value :=
  { s with name := v }

/-- Project (lines 87-89). -/
def Scheme.Project (s : Scheme Value) (v : String) : Scheme Value :=
  { s with project := v }

/-- Access (lines 92-98). -/
def Scheme.Access (s : Scheme Value) (v : AccessType) : Scheme Value :=
  match s.activeCase with
  | some p => { s with cases := modifyCase (fun c => { c with Access := v }) s.cases p }
  | none => { s with defAccess := v }

/-- Method (lines 101-107). -/
def Scheme.Method (s : Scheme Value) (v : MethodType) : Scheme Value :=
  match s.activeCase with
  | some p => { s with cases := modifyCase (fun c => { c with Method := v }) s.cases p }
  | none => { s with defMethod := v }

/-- Consumes (lines 110-116). -/
def Scheme.Consumes (s : Scheme Value) (v : MimeType) : Scheme Value :=
  match s.activeCase with
  | some p => { s with cases := modifyCase (fun c => { c with Consumes := v }) s.cases p }
  | none => { s with defConsumes := v }

/-- Description (lines 119-125). -/
def Scheme.Description (s : Scheme Value) (v : String) : Scheme Value :=
  match s.activeCase with
  | some p => { s with cases := modifyCase (fun c => { c with Description := v }) s.cases p }
  | none => { s with descr := v }

/-- Params (lines 128-134). -/
def Scheme.Params (s : Scheme Value) (v : Option Value) : Scheme Value :=
  match s.activeCase with
  | some p => { s with cases := modifyCase (fun c => { c with Params := v }) s.cases p }
  | none => { s with defParams := v }

/-- RequestHeaders (lines 137-143). -/
def Scheme.RequestHeaders (s : Scheme Value) (v : Option Value) : Scheme Value :=
  match s.activeCase with
  | some p =>
    { s with cases :=
        modifyCase (fun c => { c with Headers := { c.Headers with Request := v } }) s.cases p }
  | none => { s with defHeaders := { s.defHeaders with Request := v } }

/-- ResponseHeaders (lines 146-152). -/
def Scheme.ResponseHeaders (s : Scheme Value) (v : Option Value) : Scheme Value :=
  match s.activeCase with
  | some p =>
    { s with cases :=
        modifyCase (fun c => { c with Headers := { c.Headers with Response := v } }) s.cases p }
  | none => { s with defHeaders := { s.defHeaders with Response := v } }

/-- Body (lines 155-161). -/
def Scheme.Body (s : Scheme Value) (v : Option Value) : Scheme Value :=
  match s.activeCase with
  | some p => { s with cases := modifyCase (fun c => { c with Body := v }) s.cases p }
  | none => { s with defBody := v }

/-! ## Case recording (lines 164-200) -/

/-- The composite literal of lines 168-180: the new case, filled from the
defaults; `Description` is not named there and keeps its zero value. -/
def Scheme.newCase (s : Scheme Value) (status : StatusType) (name : String) :
    SchemeCase Value :=
  { Status := status
    Name := name
    Description := ""
    Method := s.defMethod
    Consumes := s.defConsumes
    Access := s.defAccess
    Params := s.defParams
    Headers := { Request := s.defHeaders.Request, Response := s.defHeaders.Response }
    Body := s.defBody }

/-- Lines 165-182 of `Case`, once the mutex is acquired: the state in which
the callback `fn` starts. -/
def Scheme.caseOpen (s : Scheme Value) (status : StatusType) (name : String) :
    Scheme Value :=
  { s with
    mu := true
    activeCase := some s.cases.length
    cases := s.cases ++ [s.newCase status name] }

/-- Line 184 and the deferred unlock of line 166. -/
def Scheme.caseClose (s : Scheme Value) : Scheme Value :=
  { s with activeCase := none, mu := false }

/-- Case (lines 164-185). The callback is a state transformer that may itself
fail to return. `none`: the call never returns, because the mutex is already
held (line 165) or because `fn` does not return. -/
def Scheme.Case (s : Scheme Value) (status : StatusType) (name : String)
    (fn : Scheme Value → Option (Scheme Value)) : Option (Scheme Value) :=
  if s.mu then none
  else
    match fn (s.caseOpen status name) with
    | some s2 => some s2.caseClose
    | none => none

/-- Cases (lines 188-190). -/
def Scheme.Cases (s : Scheme Value) : List (SchemeCase Value) := s.cases

/-- The loop of `GetCaseByStatus` (lines 194-198). -/
def getCaseByStatusLoop (v : StatusType) : List (SchemeCase Value) → Option (SchemeCase Value)
  | [] => none
  | c :: rest => if c.Status = v then some c else getCaseByStatusLoop v rest

/-- GetCaseByStatus (lines 193-200); `none` is the nil pointer. -/
def Scheme.GetCaseByStatus (s : Scheme Value) (v : StatusType) : Option (SchemeCase Value) :=
  getCaseByStatusLoop v s.cases

/-! ## Callbacks that are sequences of setter calls -/

/-- One call of a setter of `Scheme`. -/
inductive SetterCall (Value : Type) where
  | URL (v : String)
  | Name (v : String)
  | Project (v : String)
  | Access (v : AccessType)
  | Method (v : MethodType)
  | Consumes (v : MimeType)
  | Description (v : String)
  | Params (v : Option Value)
  | RequestHeaders (v : Option Value)
  | ResponseHeaders (v : Option Value)
  | Body (v : Option Value)

/-- Perform one setter call. -/
def Scheme.call (s : Scheme Value) : SetterCall Value → Scheme Value
  | .URL v => s.URL v
  | .Name v => s.Name v
  | .Project v => s.Project v
  | .Access v => s.Access v
  | .Method v => s.Method v
  | .Consumes v => s.Consumes v
  | .Description v => s.Description v
  | .Params v => s.Params v
  | .RequestHeaders v => s.RequestHeaders v
  | .ResponseHeaders v => s.ResponseHeaders v
  | .Body v => s.Body v

/-- The callback `func() { call_1; ...; call_n }`. -/
def callback (calls : List (SetterCall Value)) (s : Scheme Value) : Option (Scheme Value) :=
  some (calls.foldl Scheme.call s)

/-! ## Export (lines 203-263) -/

/-- setReflectObjectMap (lines 250-263). The map argument is mutated in place
in the source, so the embedding returns the map after the call together with
the returned value. -/
def setReflectObjectMap (R : Reflection Value Item) (obj : List (String × Item))
    (v : Option Value) : List (String × Item) × Option Value :=
  match v with
  | some x =>
    let ref := R.Get x
    ((R.Nested ref).foldl (fun o item => mapSet o (R.Name item) item) obj, R.prepareMock ref)
  | none => (obj, none)

/-- The composite literal of lines 216-228; `Access` is not named there and
has its zero value until line 233. -/
def newDetail (c : SchemeCase Value) : JSONSchemeDetail Item :=
  { Access := ""
    Request := { Method := c.Method, Consumes := c.Consumes, Headers := [], Params := [] }
    Response := { Headers := [], Body := [] } }

/-- One iteration of the loop of `ToJSON` (lines 214-244), for index `i` and
case `c`. `d` is a pointer stored in `json.Detail`, so what is written through
it is written back under `c.Status`. -/
def toJSONStep (R : Reflection Value Item) (json : JSONScheme Value Item) (i : Nat)
    (c : SchemeCase Value) : JSONScheme Value Item :=
  let d0 : JSONSchemeDetail Item :=
    match mapGet json.Detail c.Status with
    | some d => d
    | none => newDetail c
  let d1 := { d0 with Access := c.Access }
  let rq := setReflectObjectMap R d1.Request.Headers c.Headers.Request
  let d2 := { d1 with Request := { d1.Request with Headers := rq.1 } }
  let rs := setReflectObjectMap R d2.Response.Headers c.Headers.Response
  let d3 := { d2 with Response := { d2.Response with Headers := rs.1 } }
  let pr := setReflectObjectMap R d3.Request.Params c.Params
  let d4 := { d3 with Request := { d3.Request with Params := pr.1 } }
  let bd := setReflectObjectMap R d4.Response.Body c.Body
  let d5 := { d4 with Response := { d4.Response with Body := bd.1 } }
  let nc : SchemeCase Value :=
    { c with Headers := { Request := rq.2, Response := rs.2 }, Params := pr.2, Body := bd.2 }
  { json with
    Detail := mapSet json.Detail c.Status d5
    Cases := json.Cases.set i (some nc) }

/-- The loop `for i, c := range s.cases` (line 213), from index `i` on. -/
def toJSONLoop (R : Reflection Value Item) :
    List (SchemeCase Value) → Nat → JSONScheme Value Item → JSONScheme Value Item
  | [], _, json => json
  | c :: rest, i, json => toJSONLoop R rest (i + 1) (toJSONStep R json i c)

/-- ToJSON (lines 203-248). -/
def Scheme.ToJSON (R : Reflection Value Item) (s : Scheme Value) : JSONScheme Value Item :=
  toJSONLoop R s.cases 0
    { URL := s.url
      Name := s.name
      Project := s.project
      Description := s.descr
      Detail := []
      Cases := List.replicate s.cases.length none }

/-! ## The four example slots -/

/-- The four example slots of a case, each with its catalogue in a detail
record (lines 238-242). -/
inductive Slot where
  | RequestHeaders
  | ResponseHeaders
  | Params
  | Body
  deriving DecidableEq

/-- The example value a case holds in a slot: the second argument of the
corresponding `setReflectObjectMap` call. -/
def Slot.ofCase : Slot → SchemeCase Value → Option Value
  | .RequestHeaders, c => c.Headers.Request
  | .ResponseHeaders, c => c.Headers.Response
  | .Params, c => c.Params
  | .Body, c => c.Body

/-- The catalogue a detail record holds for a slot: the first argument of the
corresponding `setReflectObjectMap` call. -/
def Slot.ofDetail : Slot → JSONSchemeDetail Item → List (String × Item)
  | .RequestHeaders, d => d.Request.Headers
  | .ResponseHeaders, d => d.Response.Headers
  | .Params, d => d.Request.Params
  | .Body, d => d.Response.Body

/-! ## Specification-side notions -/

/-- The items a case contributes to the catalogue of status `st` in slot `k`:
the `Nested` items of the reflected catalogue of its value in that slot, when
the case has status `st` and the value is not absent. -/
def caseItems (R : Reflection Value Item) (k : Slot) (st : StatusType)
    (c : SchemeCase Value) : List Item :=
  if c.Status = st then
    match k.ofCase c with
    | some v => R.Nested (R.Get v)
    | none => []
  else []

/-- All items contributed to the catalogue of status `st` in slot `k`, in
processing order: cases in recorded order, items in `Nested` order. -/
def slotItems (R : Reflection Value Item) (k : Slot) (st : StatusType) :
    List (SchemeCase Value) → List Item
  | [] => []
  | c :: rest => caseItems R k st c ++ slotItems R k st rest

/-- The last item named `n` in a list of items. -/
def lastNamed (R : Reflection Value Item) (n : String) (items : List Item) : Option Item :=
  (items.filter (fun it => R.Name it = n)).getLast?

/-! ## The loop body of `ToJSON`, split by what it writes -/

/-- The exported copy `nc` of a case (lines 235-242): the case with its four
example values replaced by what `setReflectObjectMap` returns for them. -/
def exportCase (R : Reflection Value Item) (c : SchemeCase Value) : SchemeCase Value :=
  { c with
    Headers :=
      { Request := c.Headers.Request.bind (fun x => R.prepareMock (R.Get x))
        Response := c.Headers.Response.bind (fun x => R.prepareMock (R.Get x)) }
    Params := c.Params.bind (fun x => R.prepareMock (R.Get x))
    Body := c.Body.bind (fun x => R.prepareMock (R.Get x)) }

/-- The detail record of one status after one more case `c` of that status,
`od` being the record before it (`none`: there is none yet); the part of
`toJSONStep` that concerns `d`. -/
def stepDetail (R : Reflection Value Item) (c : SchemeCase Value)
    (od : Option (JSONSchemeDetail Item)) : JSONSchemeDetail Item :=
  let d0 : JSONSchemeDetail Item :=
    match od with
    | some d => d
    | none => newDetail c
  { Access := c.Access
    Request :=
      { Method := d0.Request.Method
        Consumes := d0.Request.Consumes
        Headers := (setReflectObjectMap R d0.Request.Headers c.Headers.Request).1
        Params := (setReflectObjectMap R d0.Request.Params c.Params).1 }
    Response :=
      { Headers := (setReflectObjectMap R d0.Response.Headers c.Headers.Response).1
        Body := (setReflectObjectMap R d0.Response.Body c.Body).1 } }

/-- The detail record of status `st` after the cases `cs`, starting from `od`. -/
def detailAfter (R : Reflection Value Item) (st : StatusType) :
    List (SchemeCase Value) → Option (JSONSchemeDetail Item) → Option (JSONSchemeDetail Item)
  | [], od => od
  | c :: rest, od =>
    detailAfter R st rest (if c.Status = st then some (stepDetail R c od) else od)

/-- The catalogue of slot `k` in an optional detail record; no record, no
entries. -/
def catalogueOf (k : Slot) (od : Option (JSONSchemeDetail Item)) : List (String × Item) :=
  match od with
  | some d => k.ofDetail d
  | none => []

/-- A sequence of calls `Case(status, name, func() { setter calls })`. -/
def recordAll : List (StatusType × String × List (SetterCall Value)) → Scheme Value →
    Option (Scheme Value)
  | [], s => some s
  | (status, name, calls) :: rest, s =>
    match s.Case status name (callback calls) with
    | some s2 => recordAll rest s2
    | none => none

/-- What a setter call made while a case is active leaves alone. -/
structure SameOutside (s t : Scheme Value) : Prop where
  mu : t.mu = s.mu
  activeCase : t.activeCase = s.activeCase
  defAccess : t.defAccess = s.defAccess
  defMethod : t.defMethod = s.defMethod
  defConsumes : t.defConsumes = s.defConsumes
  defParams : t.defParams = s.defParams
  defHeaders : t.defHeaders = s.defHeaders
  defBody : t.defBody = s.defBody
  length : t.cases.length = s.cases.length

/-! ## Programs of top-level calls -/

/-- A call made on a Scheme outside any callback: a setter, or `Case` with a
callback that is a sequence of setter calls. -/
inductive TopCall (Value : Type) where
  | setter (x : SetterCall Value)
  | case (status : StatusType) (name : String) (calls : List (SetterCall Value))

/-- Run a sequence of top-level calls; `none` when one of them never returns. -/
def runTop : List (TopCall Value) → Scheme Value → Option (Scheme Value)
  | [], s => some s
  | .setter x :: rest, s => runTop rest (s.call x)
  | .case status name calls :: rest, s =>
    match s.Case status name (callback calls) with
    | some s2 => runTop rest s2
    | none => none

/-- The argument of the last `Description` call made outside a callback in a
sequence of top-level calls, `d` when there is none. -/
def lastDescription : List (TopCall Value) → String → String
  | [], d => d
  | .setter (.Description v) :: rest, _ => lastDescription rest v
  | _ :: rest, d => lastDescription rest d

/-- The calls of the end-to-end example of the spec (§8, property 8), `v` being
the example value given to `Body`. -/
def endToEnd (v : Value) : Option (Scheme Value) :=
  runTop
    [ .setter (.URL "/users"), .setter (.Method "GET"), .setter (.Access "public"),
      .case 200 "ok" [.Body (some v)], .case 404 "missing" [.Access "admin"] ]
    Scheme.zero

/-! ## Export with the `SchemeCase` objects in memory

`ToJSON` writes through the pointers `nc` (lines 236-242). To see what these
writes can reach, this second embedding of `ToJSON` keeps every `SchemeCase`
object in a heap (a list; an address is an index): the scheme's cases are the
objects at the addresses `0 .. len(s.cases) - 1`, which are the pointers held by
`s.cases`, and `&SchemeCase{}` allocates at the end. The other objects `ToJSON`
writes to (`json`, the detail records, the maps) are of types a `Scheme` holds
no reference to. -/

/-- The zero value `SchemeCase{}`. -/
def SchemeCase.zero : SchemeCase Value :=
  { Name := "", Description := "", Access := "", Status := 0, Method := "", Consumes := "",
    Params := none, Headers := { Request := none, Response := none }, Body := none }

/-- The memory `ToJSON` works on: the heap of `SchemeCase` objects, and of the
local `json` the fields the loop writes, `Cases` holding pointers (`none` is
nil). -/
structure ExportState (Value Item : Type) where
  heap : List (SchemeCase Value)
  Detail : List (StatusType × JSONSchemeDetail Item)
  Cases : List (Option Nat)

/-- One iteration of the loop of `ToJSON` (lines 214-244) on the memory, for
index `i` and the pointer `p` found in `s.cases[i]`. -/
def toJSONMemStep (R : Reflection Value Item) (m : ExportState Value Item) (i : Nat)
    (p : Nat) : ExportState Value Item :=
  match m.heap[p]? with
  | none => m
  | some c =>
    let d0 : JSONSchemeDetail Item :=
      match mapGet m.Detail c.Status with
      | some d => d
      | none => newDetail c
    let d1 := { d0 with Access := c.Access }
    let nc := m.heap.length
    let h0 := m.heap ++ [SchemeCase.zero]
    let h1 := modifyCase (fun _ => c) h0 nc
    let rq := setReflectObjectMap R d1.Request.Headers c.Headers.Request
    let d2 := { d1 with Request := { d1.Request with Headers := rq.1 } }
    let h2 := modifyCase (fun x => { x with Headers := { x.Headers with Request := rq.2 } }) h1 nc
    let rs := setReflectObjectMap R d2.Response.Headers c.Headers.Response
    let d3 := { d2 with Response := { d2.Response with Headers := rs.1 } }
    let h3 := modifyCase (fun x => { x with Headers := { x.Headers with Response := rs.2 } }) h2 nc
    let pr := setReflectObjectMap R d3.Request.Params c.Params
    let d4 := { d3 with Request := { d3.Request with Params := pr.1 } }
    let h4 := modifyCase (fun x => { x with Params := pr.2 }) h3 nc
    let bd := setReflectObjectMap R d4.Response.Body c.Body
    let d5 := { d4 with Response := { d4.Response with Body := bd.1 } }
    let h5 := modifyCase (fun x => { x with Body := bd.2 }) h4 nc
    { heap := h5
      Detail := mapSet m.Detail c.Status d5
      Cases := m.Cases.set i (some nc) }

/-- The loop `for i, c := range s.cases` (line 213) on the memory, over the
pointers still to visit, from index `i` on. -/
def toJSONMemLoop (R : Reflection Value Item) :
    List Nat → Nat → ExportState Value Item → ExportState Value Item
  | [], _, m => m
  | p :: rest, i, m => toJSONMemLoop R rest (i + 1) (toJSONMemStep R m i p)

/-- The memory after the loop of `ToJSON` on the scheme `s`. -/
def Scheme.exportMem (R : Reflection Value Item) (s : Scheme Value) : ExportState Value Item :=
  toJSONMemLoop R (List.range' 0 s.cases.length) 0
    { heap := s.cases, Detail := [], Cases := List.replicate s.cases.length none }

/-- ToJSON (lines 203-248) on the memory: the scheme after the call, its cases
read back at their addresses, and the returned document with the pointers of
`Cases` followed. -/
def Scheme.ToJSONMem (R : Reflection Value Item) (s : Scheme Value) :
    Scheme Value × JSONScheme Value Item :=
  let m := s.exportMem R
  ({ s with cases := m.heap.take s.cases.length },
   { URL := s.url
     Name := s.name
     Project := s.project
     Description := s.descr
     Detail := m.Detail
     Cases := m.Cases.map (fun op => op.bind (fun q => m.heap[q]?)) })

/-! ## Concrete data used to evaluate the definitions -/

/-- An example value of the small reflection service below: the fields of a
record, each a name with a type tag. -/
abbrev DemoValue := List (String × Nat)

/-- A field descriptor of the small reflection service below: name, type tag
and nested fields. -/
abbrev DemoItem := String × Nat × List (String × Nat)

/-- A small reflection service: the catalogue of a record has one nested item
for each field, and the mock is the record itself. -/
def demoReflection : Reflection DemoValue DemoItem :=
  { Get := fun v => ("", 0, v)
    Nested := fun it => it.2.2.map (fun f => (f.1, f.2, []))
    Name := fun it => it.1
    prepareMock := fun it => some it.2.2 }

/-- A scheme with endpoint-level values set and no case recorded. -/
def demoScheme : Scheme DemoValue :=
  ((((Scheme.zero.URL "/users").Method "GET").Access "public").Body (some [("id", 1)]))

/-- The scheme `demoScheme` inside the callback of `Case(200, "ok", fn)`. -/
def demoOpen : Scheme DemoValue := demoScheme.caseOpen 200 "ok"

/-- Three recorded cases with statuses 200, 200 and 404. -/
def demoCases : List (SchemeCase DemoValue) :=
  [ { Name := "ok", Description := "", Access := "public", Status := 200, Method := "GET",
      Consumes := "json", Params := none, Headers := { Request := none, Response := none },
      Body := some [("id", 1), ("name", 1)] },
    { Name := "ok2", Description := "d", Access := "admin", Status := 200, Method := "POST",
      Consumes := "form", Params := some [("q", 2)],
      Headers := { Request := some [("token", 2)], Response := none },
      Body := some [("name", 2), ("age", 2)] },
    { Name := "missing", Description := "", Access := "public", Status := 404,
      Method := "GET", Consumes := "json", Params := none,
      Headers := { Request := none, Response := none }, Body := none } ]

/-- A scheme holding `demoCases`. -/
def demoRecorded : Scheme DemoValue := { demoScheme with cases := demoCases }

/-! ## Theorems -/

/-! ### Writing through the active-case pointer -/

theorem modifyCase_length (f : SchemeCase Value → SchemeCase Value)
    (cs : List (SchemeCase Value)) (p : Nat) : (modifyCase f cs p).length = cs.length := by
  induction cs generalizing p with
  | nil => rfl
  | cons c rest ih =>
    cases p with
    | zero => rfl
    | succ p => simp [modifyCase, ih]

theorem modifyCase_getElem?_same (f : SchemeCase Value → SchemeCase Value)
    (cs : List (SchemeCase Value)) (p : Nat) : (modifyCase f cs p)[p]? = (cs[p]?).map f := by
  induction cs generalizing p with
  | nil => simp [modifyCase]
  | cons c rest ih =>
    cases p with
    | zero => simp [modifyCase]
    | succ p => simp [modifyCase, ih]

theorem modifyCase_getElem?_other (f : SchemeCase Value → SchemeCase Value)
    (cs : List (SchemeCase Value)) (p j : Nat) (h : j ≠ p) :
    (modifyCase f cs p)[j]? = cs[j]? := by
  induction cs generalizing p j with
  | nil => simp [modifyCase]
  | cons c rest ih =>
    cases p with
    | zero =>
      cases j with
      | zero => exact absurd rfl h
      | succ j => simp [modifyCase]
    | succ p =>
      cases j with
      | zero => simp [modifyCase]
      | succ j => simpa [modifyCase] using ih p j (fun e => h (by rw [e]))

theorem modifyCase_map {β : Type} (g : SchemeCase Value → β)
    (f : SchemeCase Value → SchemeCase Value) (hf : ∀ c, g (f c) = g c)
    (cs : List (SchemeCase Value)) (p : Nat) : (modifyCase f cs p).map g = cs.map g := by
  induction cs generalizing p with
  | nil => rfl
  | cons c rest ih =>
    cases p with
    | zero => simp [modifyCase, hf]
    | succ p => simp [modifyCase, ih]

/-- The snapshot is the active case of the state the callback starts in. -/
theorem caseOpen_active (s : Scheme Value) (status : StatusType) (name : String) :
    (s.caseOpen status name).active = some (s.newCase status name) := by
  simp [Scheme.caseOpen, Scheme.active]

/-! ### Frame of a setter call made inside a transaction -/

theorem SameOutside.refl (s : Scheme Value) : SameOutside s s :=
  ⟨rfl, rfl, rfl, rfl, rfl, rfl, rfl, rfl, rfl⟩

theorem SameOutside.trans {s t u : Scheme Value} (h1 : SameOutside s t)
    (h2 : SameOutside t u) : SameOutside s u :=
  ⟨h2.mu.trans h1.mu, h2.activeCase.trans h1.activeCase, h2.defAccess.trans h1.defAccess,
    h2.defMethod.trans h1.defMethod, h2.defConsumes.trans h1.defConsumes,
    h2.defParams.trans h1.defParams, h2.defHeaders.trans h1.defHeaders,
    h2.defBody.trans h1.defBody, h2.length.trans h1.length⟩

theorem call_sameOutside (s : Scheme Value) (p : Nat) (hp : s.activeCase = some p)
    (x : SetterCall Value) : SameOutside s (s.call x) := by
  cases x <;>
    simp only [Scheme.call, Scheme.URL, Scheme.Name, Scheme.Project, Scheme.Access,
      Scheme.Method, Scheme.Consumes, Scheme.Description, Scheme.Params,
      Scheme.RequestHeaders, Scheme.ResponseHeaders, Scheme.Body, hp] <;>
    exact ⟨rfl, by simp [hp], rfl, rfl, rfl, rfl, rfl, rfl, by simp [modifyCase_length]⟩

theorem calls_sameOutside (calls : List (SetterCall Value)) (s : Scheme Value) (p : Nat)
    (hp : s.activeCase = some p) : SameOutside s (calls.foldl Scheme.call s) := by
  induction calls generalizing s with
  | nil => exact SameOutside.refl s
  | cons x rest ih =>
    have h1 := call_sameOutside s p hp x
    exact h1.trans (ih (s.call x) (h1.activeCase.trans hp))

/-- A setter call never changes the status or the name of a recorded case. -/
theorem call_status_name (s : Scheme Value) (x : SetterCall Value) :
    (s.call x).cases.map (fun c => (c.Status, c.Name))
      = s.cases.map (fun c => (c.Status, c.Name)) := by
  cases x <;>
    simp only [Scheme.call, Scheme.URL, Scheme.Name, Scheme.Project, Scheme.Access,
      Scheme.Method, Scheme.Consumes, Scheme.Description, Scheme.Params,
      Scheme.RequestHeaders, Scheme.ResponseHeaders, Scheme.Body] <;>
    first
      | rfl
      | (split <;> first | rfl | exact modifyCase_map _ _ (by intro _; rfl) _ _)

theorem calls_status_name (calls : List (SetterCall Value)) (s : Scheme Value) :
    (calls.foldl Scheme.call s).cases.map (fun c => (c.Status, c.Name))
      = s.cases.map (fun c => (c.Status, c.Name)) := by
  induction calls generalizing s with
  | nil => rfl
  | cons x rest ih => exact (ih (s.call x)).trans (call_status_name s x)

/-! ### C1 -/

/-- C1 (default propagation): in the state in which the callback of
`Case(status, name, fn)` starts, the active case has the given status and name
and the scheme's defaults of that moment in Method, Consumes, Access, Params,
Headers.Request, Headers.Response and Body; with the mutex free, `Case` is that
callback run from that state, and a callback that calls no setter records
exactly this snapshot at the end of the case list. -/
theorem C1_default_propagation (s : Scheme Value) (status : StatusType) (name : String)
    (fn : Scheme Value → Option (Scheme Value)) :
    ∃ c : SchemeCase Value,
      (s.caseOpen status name).active = some c ∧
      c.Status = status ∧ c.Name = name ∧ c.Method = s.defMethod ∧
      c.Consumes = s.defConsumes ∧ c.Access = s.defAccess ∧ c.Params = s.defParams ∧
      c.Headers.Request = s.defHeaders.Request ∧
      c.Headers.Response = s.defHeaders.Response ∧ c.Body = s.defBody ∧
      (s.mu = false →
        s.Case status name fn = (fn (s.caseOpen status name)).map Scheme.caseClose ∧
        ∃ s2, s.Case status name (callback []) = some s2 ∧ s2.Cases = s.Cases ++ [c]) := by
  refine ⟨s.newCase status name, caseOpen_active s status name, rfl, rfl, rfl, rfl, rfl, rfl,
    rfl, rfl, rfl, ?_⟩
  intro hmu
  refine ⟨?_, ?_⟩
  · unfold Scheme.Case
    rw [hmu]
    cases fn (s.caseOpen status name) <;> rfl
  · refine ⟨(s.caseOpen status name).caseClose, ?_, rfl⟩
    unfold Scheme.Case
    rw [hmu]
    rfl

/-- C1 evaluated on `demoScheme`. -/
theorem C1_default_propagation_witness :
    ∃ c : SchemeCase DemoValue,
      (demoScheme.caseOpen 200 "ok").active = some c ∧
      c.Status = 200 ∧ c.Name = "ok" ∧ c.Method = "GET" ∧ c.Access = "public" ∧
      c.Body = some [("id", 1)] ∧
      ∃ s2, demoScheme.Case 200 "ok" (callback []) = some s2 ∧ s2.Cases = [c] := by
  obtain ⟨c, h1, h2, h3, h4, _, h6, _, _, _, h10, h11⟩ :=
    C1_default_propagation demoScheme 200 "ok" (callback [])
  obtain ⟨_, s2, h12, h13⟩ := h11 rfl
  exact ⟨c, h1, h2, h3, h4, h6, h10, s2, h12, h13⟩

/-! ### C2 -/

/-- C2 (override scoping): in every state, if `Case(status, name, fn)` with a
callback that is any finite sequence of setter calls returns, it leaves
defAccess, defMethod, defConsumes, defParams, defHeaders and defBody as they
were, and the snapshot a second `Case` call then takes has the same Method,
Consumes, Access, Params, Headers and Body as the snapshot the first call took;
and with the mutex free the call does return. -/
theorem C2_override_scoping (s : Scheme Value) (status : StatusType) (name : String)
    (calls : List (SetterCall Value)) :
    (s.mu = false → ∃ s2, s.Case status name (callback calls) = some s2) ∧
    ∀ s2, s.Case status name (callback calls) = some s2 →
      s2.defAccess = s.defAccess ∧ s2.defMethod = s.defMethod ∧
      s2.defConsumes = s.defConsumes ∧ s2.defParams = s.defParams ∧
      s2.defHeaders = s.defHeaders ∧ s2.defBody = s.defBody ∧
      ∀ (status2 : StatusType) (name2 : String),
        ∃ c1 c2, (s.caseOpen status name).active = some c1 ∧
          (s2.caseOpen status2 name2).active = some c2 ∧
          c2.Method = c1.Method ∧ c2.Consumes = c1.Consumes ∧ c2.Access = c1.Access ∧
          c2.Params = c1.Params ∧ c2.Headers = c1.Headers ∧ c2.Body = c1.Body := by
  have h := calls_sameOutside calls (s.caseOpen status name) s.cases.length rfl
  have hrun : s.mu = false → s.Case status name (callback calls)
      = some (calls.foldl Scheme.call (s.caseOpen status name)).caseClose := by
    intro hmu
    unfold Scheme.Case
    rw [hmu]
    rfl
  refine ⟨fun hmu => ⟨_, hrun hmu⟩, ?_⟩
  intro s2 hs2
  cases hmu : s.mu with
  | true => simp [Scheme.Case, hmu] at hs2
  | false =>
    rw [hrun hmu] at hs2
    cases hs2
    refine ⟨h.defAccess, h.defMethod, h.defConsumes, h.defParams, h.defHeaders, h.defBody, ?_⟩
    intro status2 name2
    refine ⟨s.newCase status name, _, caseOpen_active s status name,
      caseOpen_active _ status2 name2, ?_, ?_, ?_, ?_, ?_, ?_⟩
    · exact h.defMethod
    · exact h.defConsumes
    · exact h.defAccess
    · exact h.defParams
    · show SchemeCaseHeaders.mk _ _ = SchemeCaseHeaders.mk _ _
      have e := h.defHeaders
      simp only [Scheme.caseClose] at e ⊢
      rw [e]
      rfl
    · exact h.defBody

/-- C2 evaluated on `demoScheme` with a callback that overrides the access
rule, the method and the body. -/
theorem C2_override_scoping_witness :
    ∃ s2, demoScheme.Case 200 "ok"
        (callback [.Access "admin", .Method "POST", .Body none]) = some s2 ∧
      s2.defAccess = "public" ∧ s2.defMethod = "GET" ∧ s2.defBody = some [("id", 1)] := by
  have h := C2_override_scoping demoScheme 200 "ok"
    [.Access "admin", .Method "POST", .Body none]
  obtain ⟨s2, hs2⟩ := h.1 rfl
  obtain ⟨h1, h2, _, _, _, h6, _⟩ := h.2 s2 hs2
  exact ⟨s2, hs2, h1, h2, h6⟩

/-! ### C3 -/

/-- C3, counterexample: inside the transaction `demoOpen` (the active case is
the one named "ok"), `URL`, `Name` and `Project` store their argument as the
endpoint-level value and leave the active case as it was. -/
theorem C3_setters_counterexample :
    demoOpen.active.map (fun c => c.Name) = some "ok" ∧
    demoOpen.url = "/users" ∧ (demoOpen.URL "/v2").url = "/v2" ∧
    demoOpen.name = "" ∧ (demoOpen.Name "n").name = "n" ∧
    demoOpen.project = "" ∧ (demoOpen.Project "p").project = "p" ∧
    (demoOpen.URL "/v2").active = demoOpen.active ∧
    (demoOpen.Name "n").active = demoOpen.active ∧
    (demoOpen.Project "p").active = demoOpen.active := by
  decide

/-- C3 as amended: each of Access, Method, Consumes, Description, Params,
RequestHeaders, ResponseHeaders and Body, called while a case `c` is active,
makes the active case `c` with that one field replaced by `v` and leaves the
endpoint-level value of the attribute unchanged, and called with no active
case stores `v` as the endpoint-level value and leaves the cases unchanged;
URL, Name and Project store `v` as the endpoint-level value in every state and
leave the cases and the active case unchanged. -/
theorem C3_dual_target_setters (s : Scheme Value) :
    (∀ c, s.active = some c →
      (∀ v, (s.Access v).active = some { c with Access := v } ∧
        (s.Access v).defAccess = s.defAccess) ∧
      (∀ v, (s.Method v).active = some { c with Method := v } ∧
        (s.Method v).defMethod = s.defMethod) ∧
      (∀ v, (s.Consumes v).active = some { c with Consumes := v } ∧
        (s.Consumes v).defConsumes = s.defConsumes) ∧
      (∀ v, (s.Description v).active = some { c with Description := v } ∧
        (s.Description v).descr = s.descr) ∧
      (∀ v, (s.Params v).active = some { c with Params := v } ∧
        (s.Params v).defParams = s.defParams) ∧
      (∀ v, (s.RequestHeaders v).active
          = some { c with Headers := { c.Headers with Request := v } } ∧
        (s.RequestHeaders v).defHeaders = s.defHeaders) ∧
      (∀ v, (s.ResponseHeaders v).active
          = some { c with Headers := { c.Headers with Response := v } } ∧
        (s.ResponseHeaders v).defHeaders = s.defHeaders) ∧
      (∀ v, (s.Body v).active = some { c with Body := v } ∧
        (s.Body v).defBody = s.defBody)) ∧
    (s.activeCase = none →
      (∀ v, (s.Access v).defAccess = v ∧ (s.Access v).cases = s.cases) ∧
      (∀ v, (s.Method v).defMethod = v ∧ (s.Method v).cases = s.cases) ∧
      (∀ v, (s.Consumes v).defConsumes = v ∧ (s.Consumes v).cases = s.cases) ∧
      (∀ v, (s.Description v).descr = v ∧ (s.Description v).cases = s.cases) ∧
      (∀ v, (s.Params v).defParams = v ∧ (s.Params v).cases = s.cases) ∧
      (∀ v, (s.RequestHeaders v).defHeaders.Request = v ∧
        (s.RequestHeaders v).defHeaders.Response = s.defHeaders.Response ∧
        (s.RequestHeaders v).cases = s.cases) ∧
      (∀ v, (s.ResponseHeaders v).defHeaders.Response = v ∧
        (s.ResponseHeaders v).defHeaders.Request = s.defHeaders.Request ∧
        (s.ResponseHeaders v).cases = s.cases) ∧
      (∀ v, (s.Body v).defBody = v ∧ (s.Body v).cases = s.cases)) ∧
    (∀ v, (s.URL v).url = v ∧ (s.URL v).cases = s.cases ∧
      (s.URL v).activeCase = s.activeCase) ∧
    (∀ v, (s.Name v).name = v ∧ (s.Name v).cases = s.cases ∧
      (s.Name v).activeCase = s.activeCase) ∧
    (∀ v, (s.Project v).project = v ∧ (s.Project v).cases = s.cases ∧
      (s.Project v).activeCase = s.activeCase) := by
  refine ⟨?_, ?_, fun _ => ⟨rfl, rfl, rfl⟩, fun _ => ⟨rfl, rfl, rfl⟩,
    fun _ => ⟨rfl, rfl, rfl⟩⟩
  · intro c hc
    unfold Scheme.active at hc
    cases hp : s.activeCase with
    | none => simp [hp] at hc
    | some p =>
      rw [hp] at hc
      simp only [] at hc
      refine ⟨?_, ?_, ?_, ?_, ?_, ?_, ?_, ?_⟩ <;> intro v <;>
        simp [Scheme.Access, Scheme.Method, Scheme.Consumes, Scheme.Description,
          Scheme.Params, Scheme.RequestHeaders, Scheme.ResponseHeaders, Scheme.Body,
          Scheme.active, hp, modifyCase_getElem?_same, hc]
  · intro hn
    refine ⟨?_, ?_, ?_, ?_, ?_, ?_, ?_, ?_⟩ <;> intro v <;>
      simp [Scheme.Access, Scheme.Method, Scheme.Consumes, Scheme.Description,
        Scheme.Params, Scheme.RequestHeaders, Scheme.ResponseHeaders, Scheme.Body, hn]

/-- C3 as amended, evaluated inside the transaction `demoOpen` for `Access` and
`URL`. -/
theorem C3_dual_target_setters_witness :
    (demoOpen.Access "admin").active.map (fun c => c.Access) = some "admin" ∧
    (demoOpen.Access "admin").defAccess = "public" ∧
    (demoOpen.URL "/v2").url = "/v2" := by
  have h := C3_dual_target_setters demoOpen
  have h1 := (h.1 (demoScheme.newCase 200 "ok") (by decide)).1 "admin"
  refine ⟨?_, ?_, (h.2.2.1 "/v2").1⟩
  · rw [h1.1]
    rfl
  · rw [h1.2]
    decide

/-! ### Maps -/

theorem mapGet_mapSet {K V : Type} [DecidableEq K] (m : List (K × V)) (k : K) (v : V)
    (k2 : K) : mapGet (mapSet m k v) k2 = if k = k2 then some v else mapGet m k2 := by
  induction m with
  | nil => simp [mapSet, mapGet]
  | cons e rest ih =>
    obtain ⟨k1, v1⟩ := e
    by_cases h1 : k1 = k
    · subst h1
      by_cases h2 : k1 = k2 <;> simp [mapSet, mapGet, h2]
    · by_cases h2 : k1 = k2
      · subst h2
        have h3 : ¬ k = k1 := fun e => h1 e.symm
        simp [mapSet, mapGet, h1, h3]
      · simp [mapSet, mapGet, h1, h2, ih]

theorem mem_mapKeys_mapSet {K V : Type} [DecidableEq K] (m : List (K × V)) (k : K) (v : V)
    (k2 : K) : k2 ∈ mapKeys (mapSet m k v) ↔ k2 = k ∨ k2 ∈ mapKeys m := by
  induction m with
  | nil => simp [mapSet, mapKeys]
  | cons e rest ih =>
    obtain ⟨k1, v1⟩ := e
    by_cases h1 : k1 = k
    · subst h1
      simp [mapSet, mapKeys]
    · have ih2 : k2 ∈ List.map Prod.fst (mapSet rest k v) ↔ k2 = k ∨ k2 ∈ List.map Prod.fst rest :=
        ih
      simp only [mapSet, h1, if_false, mapKeys, List.map_cons, List.mem_cons, ih2]
      tauto

theorem mapKeys_mapSet_nodup {K V : Type} [DecidableEq K] (m : List (K × V)) (k : K) (v : V)
    (h : (mapKeys m).Nodup) : (mapKeys (mapSet m k v)).Nodup := by
  induction m with
  | nil => simp [mapSet, mapKeys]
  | cons e rest ih =>
    obtain ⟨k1, v1⟩ := e
    have h0 : k1 ∉ mapKeys rest ∧ (mapKeys rest).Nodup := by
      simpa [mapKeys] using h
    by_cases h1 : k1 = k
    · subst h1
      simpa [mapSet, mapKeys] using h
    · have hk : k1 ∉ mapKeys (mapSet rest k v) := by
        rw [mem_mapKeys_mapSet]
        rintro (e | e)
        · exact h1 e
        · exact h0.1 e
      have hn := ih h0.2
      simp only [mapSet, h1, if_false]
      exact List.nodup_cons.2 ⟨hk, hn⟩

theorem mapGet_isSome_iff {K V : Type} [DecidableEq K] (m : List (K × V)) (k : K) :
    (mapGet m k).isSome ↔ k ∈ mapKeys m := by
  induction m with
  | nil => simp [mapGet, mapKeys]
  | cons e rest ih =>
    obtain ⟨k1, v1⟩ := e
    have ih2 : (mapGet rest k).isSome ↔ k ∈ List.map Prod.fst rest := ih
    by_cases h1 : k1 = k
    · subst h1
      simp [mapGet, mapKeys]
    · have h3 : ¬ k = k1 := fun e => h1 e.symm
      simp only [mapGet, h1, if_false, mapKeys, List.map_cons, List.mem_cons, ih2, h3,
        false_or]

/-! ### The loop of `ToJSON`, one status at a time -/

theorem toJSONStep_Detail (R : Reflection Value Item) (json : JSONScheme Value Item) (i : Nat)
    (c : SchemeCase Value) :
    (toJSONStep R json i c).Detail
      = mapSet json.Detail c.Status (stepDetail R c (mapGet json.Detail c.Status)) := by
  simp only [toJSONStep, stepDetail]

theorem toJSONLoop_Detail (R : Reflection Value Item) (st : StatusType)
    (cs : List (SchemeCase Value)) (i : Nat) (json : JSONScheme Value Item) :
    mapGet (toJSONLoop R cs i json).Detail st = detailAfter R st cs (mapGet json.Detail st) := by
  induction cs generalizing i json with
  | nil => rfl
  | cons c rest ih =>
    simp only [toJSONLoop, detailAfter]
    rw [ih, toJSONStep_Detail, mapGet_mapSet]
    by_cases h : c.Status = st
    · subst h
      simp
    · simp [h]

theorem toJSONLoop_nodup (R : Reflection Value Item) (cs : List (SchemeCase Value)) (i : Nat)
    (json : JSONScheme Value Item) (h : (mapKeys json.Detail).Nodup) :
    (mapKeys (toJSONLoop R cs i json).Detail).Nodup := by
  induction cs generalizing i json with
  | nil => exact h
  | cons c rest ih =>
    simp only [toJSONLoop]
    apply ih
    rw [toJSONStep_Detail]
    exact mapKeys_mapSet_nodup _ _ _ h

theorem ToJSON_Detail (R : Reflection Value Item) (s : Scheme Value) (st : StatusType) :
    mapGet (s.ToJSON R).Detail st = detailAfter R st s.cases none :=
  toJSONLoop_Detail R st s.cases 0 _

theorem detailAfter_append (R : Reflection Value Item) (st : StatusType)
    (cs cs2 : List (SchemeCase Value)) (od : Option (JSONSchemeDetail Item)) :
    detailAfter R st (cs ++ cs2) od = detailAfter R st cs2 (detailAfter R st cs od) := by
  induction cs generalizing od with
  | nil => rfl
  | cons c rest ih => exact ih _

theorem detailAfter_isSome (R : Reflection Value Item) (st : StatusType)
    (cs : List (SchemeCase Value)) (od : Option (JSONSchemeDetail Item)) :
    (detailAfter R st cs od).isSome ↔ od.isSome ∨ ∃ c ∈ cs, c.Status = st := by
  induction cs generalizing od with
  | nil => simp [detailAfter]
  | cons c rest ih =>
    simp only [detailAfter, ih, List.mem_cons, exists_eq_or_imp]
    by_cases h : c.Status = st
    · simp [h]
    · simp [h]

/-! ### C4 -/

/-- C4 (status grouping): the keys of `ToJSON().Detail` are, without
repetition, exactly the distinct statuses of the recorded cases; a status is a
key if and only if some recorded case has it, and with no case `Detail` is
empty. -/
theorem C4_status_grouping (R : Reflection Value Item) (s : Scheme Value) :
    (∀ st, st ∈ mapKeys (s.ToJSON R).Detail ↔ ∃ c ∈ s.Cases, c.Status = st) ∧
    (mapKeys (s.ToJSON R).Detail).Nodup ∧
    (mapKeys (s.ToJSON R).Detail).Perm (s.Cases.map (fun c => c.Status)).dedup ∧
    (s.Cases = [] → (s.ToJSON R).Detail = []) := by
  have h1 : ∀ st, st ∈ mapKeys (s.ToJSON R).Detail ↔ ∃ c ∈ s.Cases, c.Status = st := by
    intro st
    rw [← mapGet_isSome_iff, ToJSON_Detail, detailAfter_isSome]
    simp [Scheme.Cases]
  have h2 : (mapKeys (s.ToJSON R).Detail).Nodup :=
    toJSONLoop_nodup R s.cases 0 _ (by simp [mapKeys])
  refine ⟨h1, h2, ?_, ?_⟩
  · rw [List.perm_ext_iff_of_nodup h2 (List.nodup_dedup _)]
    intro st
    rw [h1 st]
    simp
  · intro h
    have h3 : s.cases = [] := h
    simp [Scheme.ToJSON, h3, toJSONLoop]

/-- C4 evaluated on the three cases with statuses 200, 200, 404: two keys. -/
theorem C4_status_grouping_witness :
    mapKeys (demoRecorded.ToJSON demoReflection).Detail = [200, 404] ∧
    (Scheme.zero.ToJSON demoReflection).Detail = [] := by
  have h := C4_status_grouping demoReflection (Scheme.zero : Scheme DemoValue)
  exact ⟨by decide, h.2.2.2 rfl⟩

/-! ### C6 -/

theorem stepDetail_Access (R : Reflection Value Item) (c : SchemeCase Value)
    (od : Option (JSONSchemeDetail Item)) : (stepDetail R c od).Access = c.Access := rfl

/-- C6 (access last-write-wins): `Detail[st].Access` is the Access of the last
recorded case whose status is `st`; there is such an entry exactly when there
is such a case. -/
theorem C6_access_last_wins (R : Reflection Value Item) (s : Scheme Value)
    (st : StatusType) :
    (mapGet (s.ToJSON R).Detail st).map (fun d => d.Access)
      = ((s.Cases.filter (fun c => c.Status = st)).getLast?).map (fun c => c.Access) := by
  rw [ToJSON_Detail]
  show _ = ((s.cases.filter (fun c => c.Status = st)).getLast?).map (fun c => c.Access)
  induction s.cases using List.reverseRecOn with
  | nil => rfl
  | append_singleton cs c ih =>
    rw [detailAfter_append, List.filter_append]
    by_cases h : c.Status = st
    · simp [detailAfter, h, stepDetail_Access]
    · simp [detailAfter, h, ih]

/-! ### C7 -/

theorem detailAfter_some_Request (R : Reflection Value Item) (st : StatusType)
    (cs : List (SchemeCase Value)) (d : JSONSchemeDetail Item) :
    ∃ d2, detailAfter R st cs (some d) = some d2 ∧
      d2.Request.Method = d.Request.Method ∧ d2.Request.Consumes = d.Request.Consumes := by
  induction cs generalizing d with
  | nil => exact ⟨d, rfl, rfl, rfl⟩
  | cons c rest ih =>
    simp only [detailAfter]
    by_cases h : c.Status = st
    · simp only [h, if_true]
      obtain ⟨d2, e, e1, e2⟩ := ih (stepDetail R c (some d))
      exact ⟨d2, e, e1, e2⟩
    · simp only [h, if_false]
      exact ih d

/-- C7 (method and consumes are fixed at first creation):
`Detail[st].Request.Method` and `.Consumes` are the Method and Consumes of the
first recorded case whose status is `st`; there is such an entry exactly when
there is such a case. -/
theorem C7_method_consumes_first (R : Reflection Value Item) (s : Scheme Value)
    (st : StatusType) :
    (mapGet (s.ToJSON R).Detail st).map (fun d => (d.Request.Method, d.Request.Consumes))
      = (s.Cases.find? (fun c => c.Status = st)).map (fun c => (c.Method, c.Consumes)) := by
  rw [ToJSON_Detail]
  show _ = (s.cases.find? (fun c => c.Status = st)).map (fun c => (c.Method, c.Consumes))
  induction s.cases with
  | nil => rfl
  | cons c rest ih =>
    simp only [detailAfter, List.find?_cons]
    by_cases h : c.Status = st
    · obtain ⟨d2, e, e1, e2⟩ := detailAfter_some_Request R st rest (stepDetail R c none)
      simp only [h, if_true, decide_True, e, Option.map_some']
      rw [e1, e2]
      rfl
    · simp only [h, if_false, decide_False]
      exact ih

/-! ### Catalogues -/

theorem lastNamed_append (R : Reflection Value Item) (n : String) (a b : List Item) :
    lastNamed R n (a ++ b) = (lastNamed R n b).or (lastNamed R n a) := by
  simp [lastNamed]

theorem lastNamed_cons (R : Reflection Value Item) (n : String) (it : Item)
    (rest : List Item) :
    lastNamed R n (it :: rest)
      = (lastNamed R n rest).or (if R.Name it = n then some it else none) := by
  have h := lastNamed_append R n [it] rest
  rw [List.singleton_append] at h
  rw [h]
  by_cases e : R.Name it = n <;> simp [lastNamed, e]

theorem lastNamed_isSome (R : Reflection Value Item) (n : String) (items : List Item) :
    (lastNamed R n items).isSome ↔ ∃ it ∈ items, R.Name it = n := by
  induction items with
  | nil => simp [lastNamed]
  | cons it rest ih =>
    rw [lastNamed_cons, Option.isSome_or, Bool.or_eq_true, ih]
    by_cases e : R.Name it = n <;> simp [e]

theorem foldl_mapSet_get (R : Reflection Value Item) (items : List Item)
    (obj : List (String × Item)) (n : String) :
    mapGet (items.foldl (fun o item => mapSet o (R.Name item) item) obj) n
      = (lastNamed R n items).or (mapGet obj n) := by
  induction items generalizing obj with
  | nil => simp [lastNamed]
  | cons it rest ih =>
    rw [List.foldl_cons, ih, mapGet_mapSet, lastNamed_cons, Option.or_assoc]
    by_cases e : R.Name it = n <;> simp [e]

theorem setReflectObjectMap_snd (R : Reflection Value Item) (obj : List (String × Item))
    (v : Option Value) :
    (setReflectObjectMap R obj v).2 = v.bind (fun x => R.prepareMock (R.Get x)) := by
  cases v <;> rfl

theorem setReflectObjectMap_none (R : Reflection Value Item) (obj : List (String × Item)) :
    setReflectObjectMap R obj none = (obj, none) := rfl

theorem catalogueOf_stepDetail (R : Reflection Value Item) (k : Slot) (c : SchemeCase Value)
    (od : Option (JSONSchemeDetail Item)) :
    k.ofDetail (stepDetail R c od)
      = (setReflectObjectMap R (catalogueOf k od) (k.ofCase c)).1 := by
  cases k <;> cases od <;> rfl

theorem caseItems_get (R : Reflection Value Item) (k : Slot) (c : SchemeCase Value)
    (obj : List (String × Item)) (n : String) :
    mapGet (setReflectObjectMap R obj (k.ofCase c)).1 n
      = (lastNamed R n (caseItems R k c.Status c)).or (mapGet obj n) := by
  unfold caseItems
  cases h : k.ofCase c with
  | none => simp [setReflectObjectMap, lastNamed]
  | some v => simp [setReflectObjectMap, foldl_mapSet_get]

theorem detailAfter_catalogue (R : Reflection Value Item) (k : Slot) (st : StatusType)
    (cs : List (SchemeCase Value)) (od : Option (JSONSchemeDetail Item)) (n : String) :
    mapGet (catalogueOf k (detailAfter R st cs od)) n
      = (lastNamed R n (slotItems R k st cs)).or (mapGet (catalogueOf k od) n) := by
  induction cs generalizing od with
  | nil => simp [detailAfter, slotItems, lastNamed]
  | cons c rest ih =>
    simp only [detailAfter, slotItems]
    rw [ih, lastNamed_append, Option.or_assoc]
    by_cases h : c.Status = st
    · subst h
      simp only [if_true]
      show _ = (lastNamed R n (slotItems R k c.Status rest)).or _
      congr 1
      show mapGet (k.ofDetail (stepDetail R c od)) n = _
      rw [catalogueOf_stepDetail, caseItems_get]
    · simp [h, caseItems, lastNamed]

theorem mem_slotItems (R : Reflection Value Item) (k : Slot) (st : StatusType)
    (cs : List (SchemeCase Value)) (it : Item) :
    it ∈ slotItems R k st cs ↔
      ∃ c ∈ cs, c.Status = st ∧ ∃ v, k.ofCase c = some v ∧ it ∈ R.Nested (R.Get v) := by
  induction cs with
  | nil => simp [slotItems]
  | cons c rest ih =>
    simp only [slotItems, List.mem_append, ih, List.mem_cons, exists_eq_or_imp]
    apply or_congr_left
    unfold caseItems
    by_cases h : c.Status = st
    · cases hv : k.ofCase c <;> simp [h]
    · simp [h]

theorem mapGet_all_none {K V : Type} [DecidableEq K] (m : List (K × V))
    (h : ∀ k, mapGet m k = none) : m = [] := by
  cases m with
  | nil => rfl
  | cons e rest =>
    obtain ⟨k1, v1⟩ := e
    have := h k1
    simp [mapGet] at this

/-! ### C5 -/

/-- C5 (per-status catalogue is the field-name union with later-wins): for a
status `st` that some recorded case has and each slot `k`, `Detail[st]` exists,
a name `n` is a key of its catalogue for `k` if and only if some case with
status `st` has a value in slot `k` whose reflected catalogue has a nested item
named `n`, and the descriptor stored under `n` is the last item named `n` in
processing order. -/
theorem C5_catalogue_union_later_wins (R : Reflection Value Item) (s : Scheme Value)
    (st : StatusType) (k : Slot) (h : ∃ c ∈ s.Cases, c.Status = st) :
    ∃ d, mapGet (s.ToJSON R).Detail st = some d ∧
      ∀ n : String,
        (n ∈ mapKeys (k.ofDetail d) ↔
          ∃ c ∈ s.Cases, c.Status = st ∧
            ∃ v, k.ofCase c = some v ∧ ∃ it ∈ R.Nested (R.Get v), R.Name it = n) ∧
        mapGet (k.ofDetail d) n = lastNamed R n (slotItems R k st s.Cases) := by
  have hs : (detailAfter R st s.cases none).isSome := by
    rw [detailAfter_isSome]
    exact Or.inr h
  obtain ⟨d, hd⟩ := Option.isSome_iff_exists.1 hs
  refine ⟨d, by rw [ToJSON_Detail, hd], ?_⟩
  intro n
  have hget : mapGet (k.ofDetail d) n = lastNamed R n (slotItems R k st s.cases) := by
    have h2 := detailAfter_catalogue R k st s.cases none n
    rw [hd] at h2
    simpa [catalogueOf, mapGet, Option.or_none] using h2
  refine ⟨?_, hget⟩
  rw [← mapGet_isSome_iff, hget, lastNamed_isSome]
  constructor
  · rintro ⟨it, hit, hn⟩
    obtain ⟨c, hc, hst, v, hv, hmem⟩ := (mem_slotItems R k st s.cases it).1 hit
    exact ⟨c, hc, hst, v, hv, it, hmem, hn⟩
  · rintro ⟨c, hc, hst, v, hv, it, hmem, hn⟩
    exact ⟨it, (mem_slotItems R k st s.cases it).2 ⟨c, hc, hst, v, hv, hmem⟩, hn⟩

/-- C5 evaluated on the two cases of status 200 of `demoRecorded`: the body
catalogue has the keys id, name, age, and name holds the second case's item. -/
theorem C5_catalogue_union_later_wins_witness :
    ∃ d, mapGet (demoRecorded.ToJSON demoReflection).Detail 200 = some d ∧
      mapKeys d.Response.Body = ["id", "name", "age"] ∧
      mapGet d.Response.Body "name" = some ("name", 2, []) := by
  obtain ⟨d, hd, h⟩ :=
    C5_catalogue_union_later_wins demoReflection demoRecorded 200 Slot.Body
      (by decide)
  refine ⟨d, hd, ?_, ?_⟩
  · have e : (mapGet (demoRecorded.ToJSON demoReflection).Detail 200).map
        (fun d => mapKeys d.Response.Body) = some ["id", "name", "age"] := by decide
    rw [hd] at e
    exact Option.some.inj e
  · rw [show d.Response.Body = Slot.ofDetail Slot.Body d from rfl, (h "name").2]
    decide

/-! ### The exported case list -/

theorem toJSONStep_Cases (R : Reflection Value Item) (json : JSONScheme Value Item) (i : Nat)
    (c : SchemeCase Value) :
    (toJSONStep R json i c).Cases = json.Cases.set i (some (exportCase R c)) := by
  simp only [toJSONStep, exportCase, setReflectObjectMap_snd]

theorem toJSONLoop_Cases (R : Reflection Value Item) (cs : List (SchemeCase Value)) (i : Nat)
    (json : JSONScheme Value Item) (done : List (Option (SchemeCase Value)))
    (hc : json.Cases = done ++ List.replicate cs.length none) (hi : done.length = i) :
    (toJSONLoop R cs i json).Cases = done ++ cs.map (fun c => some (exportCase R c)) := by
  induction cs generalizing i json done with
  | nil => simpa [toJSONLoop] using hc
  | cons c rest ih =>
    simp only [toJSONLoop]
    rw [ih (i + 1) (toJSONStep R json i c) (done ++ [some (exportCase R c)])]
    · simp
    · rw [toJSONStep_Cases, hc, ← hi]
      simp [List.replicate_succ]
    · simp [hi]

theorem ToJSON_Cases (R : Reflection Value Item) (s : Scheme Value) :
    (s.ToJSON R).Cases = s.cases.map (fun c => some (exportCase R c)) := by
  have h := toJSONLoop_Cases R s.cases 0
    { URL := s.url, Name := s.name, Project := s.project, Description := s.descr,
      Detail := [], Cases := List.replicate s.cases.length none } [] (by simp) rfl
  simpa [Scheme.ToJSON] using h

/-! ### C8 -/

theorem Case_callback (s : Scheme Value) (status : StatusType) (name : String)
    (calls : List (SetterCall Value)) (hmu : s.mu = false) :
    ∃ s2, s.Case status name (callback calls) = some s2 ∧ s2.mu = false ∧
      s2.cases.map (fun c => (c.Status, c.Name))
        = s.cases.map (fun c => (c.Status, c.Name)) ++ [(status, name)] := by
  refine ⟨(calls.foldl Scheme.call (s.caseOpen status name)).caseClose, ?_, rfl, ?_⟩
  · unfold Scheme.Case
    rw [hmu]
    rfl
  · show (calls.foldl Scheme.call (s.caseOpen status name)).cases.map _ = _
    rw [calls_status_name]
    simp [Scheme.caseOpen, Scheme.newCase]

theorem recordAll_status_name (l : List (StatusType × String × List (SetterCall Value)))
    (s : Scheme Value) (hmu : s.mu = false) :
    ∃ s2, recordAll l s = some s2 ∧ s2.mu = false ∧
      s2.cases.map (fun c => (c.Status, c.Name))
        = s.cases.map (fun c => (c.Status, c.Name)) ++ l.map (fun x => (x.1, x.2.1)) := by
  induction l generalizing s with
  | nil => exact ⟨s, rfl, hmu, by simp⟩
  | cons x rest ih =>
    obtain ⟨status, name, calls⟩ := x
    obtain ⟨s1, h1, hmu1, hc1⟩ := Case_callback s status name calls hmu
    obtain ⟨s2, h2, hmu2, hc2⟩ := ih s1 hmu1
    refine ⟨s2, ?_, hmu2, ?_⟩
    · simp only [recordAll, h1]
      exact h2
    · rw [hc2, hc1]
      simp

/-- C8 (order preservation): any sequence of calls
`Case(s1, n1, f1), ..., Case(sk, nk, fk)` on a fresh Scheme, the callbacks being
sequences of setter calls, returns; `Cases()` then has length k with the i-th
status and name in its i-th element, and `ToJSON().Cases` has the same length,
no nil element, and the status and name of the i-th recorded case in its i-th
element. -/
theorem C8_order_preservation (R : Reflection Value Item)
    (l : List (StatusType × String × List (SetterCall Value))) :
    ∃ s2 : Scheme Value, recordAll l Scheme.zero = some s2 ∧
      s2.Cases.length = l.length ∧
      s2.Cases.map (fun c => (c.Status, c.Name)) = l.map (fun x => (x.1, x.2.1)) ∧
      (s2.ToJSON R).Cases.length = s2.Cases.length ∧
      (s2.ToJSON R).Cases.map (fun oc => oc.map (fun c => (c.Status, c.Name)))
        = s2.Cases.map (fun c => some (c.Status, c.Name)) := by
  obtain ⟨s2, h, _, hc⟩ := recordAll_status_name l (Scheme.zero : Scheme Value) rfl
  have hc2 : s2.cases.map (fun c => (c.Status, c.Name)) = l.map (fun x => (x.1, x.2.1)) := by
    simpa [Scheme.zero] using hc
  refine ⟨s2, h, ?_, hc2, ?_, ?_⟩
  · have := congrArg List.length hc2
    simpa [Scheme.Cases] using this
  · rw [ToJSON_Cases]
    simp [Scheme.Cases]
  · rw [ToJSON_Cases]
    simp [Scheme.Cases, exportCase, Function.comp_def]

/-! ### C9 -/

/-- C9 (the exported case is a copy with only the four slots replaced): for
the recorded case `c` at index `i`, `ToJSON().Cases[i]` is a non-nil case with
the Name, Description, Access, Status, Method and Consumes of `c`, and in each
slot where `c` holds a value `v` it holds `prepareMock(reflect.Get(v))`. -/
theorem C9_exported_case (R : Reflection Value Item) (s : Scheme Value) (i : Nat)
    (c : SchemeCase Value) (h : s.Cases[i]? = some c) :
    ∃ nc, (s.ToJSON R).Cases[i]? = some (some nc) ∧
      nc.Name = c.Name ∧ nc.Description = c.Description ∧ nc.Access = c.Access ∧
      nc.Status = c.Status ∧ nc.Method = c.Method ∧ nc.Consumes = c.Consumes ∧
      ∀ (k : Slot) (v : Value), k.ofCase c = some v →
        k.ofCase nc = R.prepareMock (R.Get v) := by
  have h2 : s.cases[i]? = some c := h
  refine ⟨exportCase R c, ?_, rfl, rfl, rfl, rfl, rfl, rfl, ?_⟩
  · rw [ToJSON_Cases, List.getElem?_map, h2]
    rfl
  · intro k v hv
    cases k <;> simp only [Slot.ofCase] at hv <;> simp [Slot.ofCase, exportCase, hv]

/-- C9 evaluated on the second case of `demoRecorded`. -/
theorem C9_exported_case_witness :
    ∃ nc, (demoRecorded.ToJSON demoReflection).Cases[1]? = some (some nc) ∧
      nc.Name = "ok2" ∧ nc.Description = "d" ∧ nc.Access = "admin" ∧ nc.Status = 200 ∧
      nc.Method = "POST" ∧ nc.Consumes = "form" ∧
      nc.Body = some [("name", 2), ("age", 2)] := by
  obtain ⟨nc, h, h1, h2, h3, h4, h5, h6, h7⟩ :=
    C9_exported_case demoReflection demoRecorded 1 _ (by rfl)
  exact ⟨nc, h, h1, h2, h3, h4, h5, h6, h7 Slot.Body _ rfl⟩

/-! ### C10 -/

theorem slotItems_absent (R : Reflection Value Item) (k : Slot) (st : StatusType)
    (cs : List (SchemeCase Value)) (h : ∀ c ∈ cs, c.Status = st → k.ofCase c = none) :
    slotItems R k st cs = [] := by
  induction cs with
  | nil => rfl
  | cons c rest ih =>
    have h1 : caseItems R k st c = [] := by
      unfold caseItems
      by_cases e : c.Status = st
      · simp [e, h c (List.mem_cons_self _ _) e]
      · simp [e]
    simp only [slotItems, h1, List.nil_append]
    exact ih (fun c2 hc2 => h c2 (List.mem_cons_of_mem _ hc2))

/-- C10 (absent example is absent in output), for each slot `k`: a recorded
case with no value in slot `k` is exported with no value in slot `k`;
processing a case with no value in slot `k` leaves the catalogue of its status
for `k` as it was (empty, if the status had no record yet); and a status whose
cases all lack a value in slot `k` has an empty catalogue for `k`. -/
theorem C10_absent_example (R : Reflection Value Item) (s : Scheme Value) (k : Slot) :
    (∀ (i : Nat) (c : SchemeCase Value), s.Cases[i]? = some c → k.ofCase c = none →
      ∃ nc, (s.ToJSON R).Cases[i]? = some (some nc) ∧ k.ofCase nc = none) ∧
    (∀ (json : JSONScheme Value Item) (i : Nat) (c : SchemeCase Value), k.ofCase c = none →
      (mapGet (toJSONStep R json i c).Detail c.Status).isSome ∧
      catalogueOf k (mapGet (toJSONStep R json i c).Detail c.Status)
        = catalogueOf k (mapGet json.Detail c.Status)) ∧
    (∀ (st : StatusType) (d : JSONSchemeDetail Item),
      mapGet (s.ToJSON R).Detail st = some d →
      (∀ c ∈ s.Cases, c.Status = st → k.ofCase c = none) → k.ofDetail d = []) := by
  refine ⟨?_, ?_, ?_⟩
  · intro i c h hk
    have h2 : s.cases[i]? = some c := h
    refine ⟨exportCase R c, ?_, ?_⟩
    · rw [ToJSON_Cases, List.getElem?_map, h2]
      rfl
    · cases k <;> simp only [Slot.ofCase] at hk <;> simp [Slot.ofCase, exportCase, hk]
  · intro json i c hk
    rw [toJSONStep_Detail, mapGet_mapSet]
    simp only [if_true, Option.isSome_some, true_and]
    show k.ofDetail (stepDetail R c (mapGet json.Detail c.Status)) = _
    rw [catalogueOf_stepDetail, hk, setReflectObjectMap_none]
  · intro st d hd hall
    apply mapGet_all_none
    intro n
    have h2 := detailAfter_catalogue R k st s.cases none n
    rw [← ToJSON_Detail, hd, slotItems_absent R k st s.cases hall] at h2
    simpa [catalogueOf, mapGet, lastNamed] using h2

/-- C10 evaluated on `demoRecorded`: the case of status 404 has no body, is
exported without one, and the body catalogue of status 404 is empty. -/
theorem C10_absent_example_witness :
    (∃ nc, (demoRecorded.ToJSON demoReflection).Cases[2]? = some (some nc) ∧
      nc.Body = none) ∧
    (mapGet (demoRecorded.ToJSON demoReflection).Detail 404).map (fun d => d.Response.Body)
      = some [] := by
  have h := C10_absent_example demoReflection demoRecorded Slot.Body
  refine ⟨h.1 2 (demoCases.get ⟨2, by decide⟩) (by rfl) (by rfl), ?_⟩
  cases hd : mapGet (demoRecorded.ToJSON demoReflection).Detail 404 with
  | none => exact absurd hd (by decide)
  | some d =>
    have e := h.2.2 404 d hd (by decide)
    simp only [Option.map_some']
    exact congrArg some e

/-! ### C11 -/

theorem getCaseByStatusLoop_eq_find (v : StatusType) (cs : List (SchemeCase Value)) :
    getCaseByStatusLoop v cs = cs.find? (fun c => c.Status = v) := by
  induction cs with
  | nil => rfl
  | cons c rest ih =>
    by_cases h : c.Status = v <;> simp [getCaseByStatusLoop, List.find?_cons, h, ih]

theorem getCaseByStatusLoop_some (v : StatusType) (cs : List (SchemeCase Value))
    (c : SchemeCase Value) (h : getCaseByStatusLoop v cs = some c) :
    c.Status = v ∧ ∃ i, cs[i]? = some c ∧
      ∀ (j : Nat) (c2 : SchemeCase Value), j < i → cs[j]? = some c2 → c2.Status ≠ v := by
  induction cs with
  | nil => simp [getCaseByStatusLoop] at h
  | cons c0 rest ih =>
    by_cases e : c0.Status = v
    · simp only [getCaseByStatusLoop, e, if_true, Option.some.injEq] at h
      subst h
      exact ⟨e, 0, by simp, fun j _ hj => absurd hj (Nat.not_lt_zero j)⟩
    · simp only [getCaseByStatusLoop, e, if_false] at h
      obtain ⟨h1, i, h2, h3⟩ := ih h
      refine ⟨h1, i + 1, by simpa using h2, ?_⟩
      intro j c2 hj hc2
      cases j with
      | zero =>
        simp only [List.getElem?_cons_zero, Option.some.injEq] at hc2
        subst hc2
        exact e
      | succ j => exact h3 j c2 (Nat.lt_of_succ_lt_succ hj) (by simpa using hc2)

/-- C11 (GetCaseByStatus): the result is nil if and only if no recorded case
has status `v`; a returned case has status `v` and is the first such case in
recorded order (it stands at an index before which no case has status `v`). -/
theorem C11_GetCaseByStatus (s : Scheme Value) (v : StatusType) :
    (s.GetCaseByStatus v = none ↔ ∀ c ∈ s.Cases, c.Status ≠ v) ∧
    (∀ c, s.GetCaseByStatus v = some c →
      c.Status = v ∧ ∃ i, s.Cases[i]? = some c ∧
        ∀ (j : Nat) (c2 : SchemeCase Value), j < i → s.Cases[j]? = some c2 →
          c2.Status ≠ v) ∧
    s.GetCaseByStatus v = s.Cases.find? (fun c => c.Status = v) := by
  refine ⟨?_, ?_, getCaseByStatusLoop_eq_find v s.cases⟩
  · unfold Scheme.GetCaseByStatus Scheme.Cases
    rw [getCaseByStatusLoop_eq_find, List.find?_eq_none]
    simp
  · intro c h
    exact getCaseByStatusLoop_some v s.cases c h

/-- C11 evaluated on `demoRecorded`: status 200 gives the first of the two
cases of status 200, status 500 gives nil. -/
theorem C11_GetCaseByStatus_witness :
    (demoRecorded.GetCaseByStatus 200).map (fun c => c.Name) = some "ok" ∧
    demoRecorded.GetCaseByStatus 500 = none := by
  refine ⟨by decide, (C11_GetCaseByStatus demoRecorded 500).1.2 (by decide)⟩

/-! ### C13 -/

theorem modifyCase_append_length (f : SchemeCase Value → SchemeCase Value)
    (done : List (SchemeCase Value)) (c : SchemeCase Value) :
    modifyCase f (done ++ [c]) done.length = done ++ [f c] := by
  induction done with
  | nil => rfl
  | cons c0 rest ih => simp [modifyCase, ih]

theorem call_outside (s : Scheme Value) (h : s.activeCase = none) (x : SetterCall Value) :
    (s.call x).cases = s.cases ∧ (s.call x).activeCase = none ∧ (s.call x).mu = s.mu := by
  cases x <;>
    simp [Scheme.call, Scheme.URL, Scheme.Name, Scheme.Project, Scheme.Access,
      Scheme.Method, Scheme.Consumes, Scheme.Description, Scheme.Params,
      Scheme.RequestHeaders, Scheme.ResponseHeaders, Scheme.Body, h]

theorem calls_outside (calls : List (SetterCall Value)) (s : Scheme Value)
    (h : s.activeCase = none) :
    (calls.foldl Scheme.call s).cases = s.cases ∧
      (calls.foldl Scheme.call s).activeCase = none ∧
      (calls.foldl Scheme.call s).mu = s.mu := by
  induction calls generalizing s with
  | nil => exact ⟨rfl, h, rfl⟩
  | cons x rest ih =>
    obtain ⟨h1, h2, h3⟩ := call_outside s h x
    obtain ⟨h4, h5, h6⟩ := ih (s.call x) h2
    exact ⟨h4.trans h1, h5, h6.trans h3⟩

theorem call_inside_last (s : Scheme Value) (done : List (SchemeCase Value))
    (c0 : SchemeCase Value) (hc : s.cases = done ++ [c0])
    (ha : s.activeCase = some done.length) (x : SetterCall Value) :
    ∃ c, (s.call x).cases = done ++ [c] ∧ (s.call x).activeCase = some done.length ∧
      c.Status = c0.Status ∧ c.Name = c0.Name := by
  cases x <;>
    simp only [Scheme.call, Scheme.URL, Scheme.Name, Scheme.Project, Scheme.Access,
      Scheme.Method, Scheme.Consumes, Scheme.Description, Scheme.Params,
      Scheme.RequestHeaders, Scheme.ResponseHeaders, Scheme.Body, ha, hc,
      modifyCase_append_length] <;>
    exact ⟨_, rfl, trivial, rfl, rfl⟩

theorem calls_inside_last (calls : List (SetterCall Value)) (s : Scheme Value)
    (done : List (SchemeCase Value)) (c0 : SchemeCase Value) (hc : s.cases = done ++ [c0])
    (ha : s.activeCase = some done.length) :
    ∃ c, (calls.foldl Scheme.call s).cases = done ++ [c] ∧
      c.Status = c0.Status ∧ c.Name = c0.Name := by
  induction calls generalizing s c0 with
  | nil => exact ⟨c0, hc, rfl, rfl⟩
  | cons x rest ih =>
    obtain ⟨c1, h1, h2, h3, h4⟩ := call_inside_last s done c0 hc ha x
    obtain ⟨c, h5, h6, h7⟩ := ih (s.call x) c1 h1 h2
    exact ⟨c, h5, h6.trans h3, h7.trans h4⟩

/-- C13 (recorded cases are immutable outside their own callback): when `Case`
returns, the active-case slot is nil; setter calls made in a state with no
active case leave the list of recorded cases unchanged; and a `Case` whose
callback is a sequence of setter calls leaves the previously recorded cases
unchanged and adds exactly one case, at the end, with the given status and
name. -/
theorem C13_recorded_cases_immutable (s : Scheme Value) (status : StatusType)
    (name : String) :
    (∀ (fn : Scheme Value → Option (Scheme Value)) (s2 : Scheme Value),
      s.Case status name fn = some s2 → s2.activeCase = none) ∧
    (∀ (t : Scheme Value) (calls : List (SetterCall Value)), t.activeCase = none →
      (calls.foldl Scheme.call t).Cases = t.Cases ∧
      (calls.foldl Scheme.call t).activeCase = none) ∧
    (∀ (calls : List (SetterCall Value)) (s2 : Scheme Value),
      s.Case status name (callback calls) = some s2 →
      ∃ c, s2.Cases = s.Cases ++ [c] ∧ c.Status = status ∧ c.Name = name) ∧
    (s.mu = false → ∀ calls : List (SetterCall Value),
      ∃ s2, s.Case status name (callback calls) = some s2) := by
  refine ⟨?_, ?_, ?_, ?_⟩
  · intro fn s2 h
    unfold Scheme.Case at h
    cases hmu : s.mu with
    | true => simp [hmu] at h
    | false =>
      rw [hmu] at h
      cases hf : fn (s.caseOpen status name) with
      | none => simp [hf] at h
      | some s1 =>
        simp only [hf, Bool.false_eq_true, if_false, Option.some.injEq] at h
        subst h
        rfl
  · intro t calls ht
    obtain ⟨h1, h2, _⟩ := calls_outside calls t ht
    exact ⟨h1, h2⟩
  · intro calls s2 h
    unfold Scheme.Case at h
    cases hmu : s.mu with
    | true => simp [hmu] at h
    | false =>
      rw [hmu] at h
      simp only [callback, Bool.false_eq_true, if_false, Option.some.injEq] at h
      subst h
      obtain ⟨c, h1, h2, h3⟩ := calls_inside_last calls (s.caseOpen status name) s.cases
        (s.newCase status name) rfl rfl
      exact ⟨c, h1, h2, h3⟩
  · intro hmu calls
    refine ⟨(calls.foldl Scheme.call (s.caseOpen status name)).caseClose, ?_⟩
    unfold Scheme.Case
    rw [hmu]
    rfl

/-- C13 evaluated on `demoScheme`: after a first case, a second `Case` whose
callback overrides the access rule keeps the first case and adds one. -/
theorem C13_recorded_cases_immutable_witness :
    ∃ s1 s2 c, demoScheme.Case 200 "ok" (callback []) = some s1 ∧
      s1.Case 404 "missing" (callback [.Access "admin"]) = some s2 ∧
      s1.activeCase = none ∧ s2.Cases = s1.Cases ++ [c] ∧ c.Status = 404 := by
  obtain ⟨s1, h1⟩ := (C13_recorded_cases_immutable demoScheme 200 "ok").2.2.2 rfl []
  have ha := (C13_recorded_cases_immutable demoScheme 200 "ok").1 _ s1 h1
  have hmu : s1.mu = false := by
    have e : demoScheme.Case 200 "ok" (callback [])
        = some (demoScheme.caseOpen 200 "ok").caseClose := rfl
    rw [e] at h1
    cases h1
    rfl
  obtain ⟨s2, h2⟩ := (C13_recorded_cases_immutable s1 404 "missing").2.2.2 hmu [.Access "admin"]
  obtain ⟨c, h3, h4, _⟩ := (C13_recorded_cases_immutable s1 404 "missing").2.2.1 _ s2 h2
  exact ⟨s1, s2, c, h1, h2, ha, h3, h4⟩

/-! ### C16 -/

theorem detail_method_consumes_first (R : Reflection Value Item) (st : StatusType)
    (cs : List (SchemeCase Value)) :
    (detailAfter R st cs none).map (fun d => (d.Request.Method, d.Request.Consumes))
      = (cs.find? (fun c => c.Status = st)).map (fun c => (c.Method, c.Consumes)) := by
  induction cs with
  | nil => rfl
  | cons c rest ih =>
    by_cases h : c.Status = st
    · obtain ⟨d2, e, e1, e2⟩ := detailAfter_some_Request R st rest (stepDetail R c none)
      simp only [detailAfter, List.find?_cons, h, if_true, decide_True, e, Option.map_some']
      rw [e1, e2]
      rfl
    · simpa only [detailAfter, List.find?_cons, h, if_false, decide_False] using ih

theorem detail_access_last (R : Reflection Value Item) (st : StatusType)
    (cs : List (SchemeCase Value)) :
    (detailAfter R st cs none).map (fun d => d.Access)
      = ((cs.filter (fun c => c.Status = st)).getLast?).map (fun c => c.Access) := by
  induction cs using List.reverseRecOn with
  | nil => rfl
  | append_singleton cs c ih =>
    rw [detailAfter_append, List.filter_append]
    by_cases h : c.Status = st
    · simp [detailAfter, h, stepDetail_Access]
    · simp [detailAfter, h, ih]

/-- C16, counterexample: in `demoRecorded` the two cases of status 200 carry
GET/json and then POST/form; `Detail[200]` has the method and media type of
the first one, not of the last one, while its access rule is the last one's. -/
theorem C16_method_consumes_counterexample :
    (mapGet (demoRecorded.ToJSON demoReflection).Detail 200).map
        (fun d => (d.Request.Method, d.Request.Consumes)) = some ("GET", "json") ∧
    ((demoRecorded.Cases.filter (fun c => c.Status = 200)).getLast?).map
        (fun c => (c.Method, c.Consumes)) = some ("POST", "form") ∧
    (mapGet (demoRecorded.ToJSON demoReflection).Detail 200).map (fun d => d.Access)
      = some "admin" := by
  decide

/-- C16 as amended: `Detail[st].Request.Method` and `.Consumes` are the Method
and Consumes of the first recorded case whose status is `st`, unlike
`Detail[st].Access`, which is the Access of the last one; one more case at a
status that already has a record leaves Method and Consumes of that record as
they were. -/
theorem C16_method_consumes_first_access_last (R : Reflection Value Item)
    (s : Scheme Value) (st : StatusType) :
    (mapGet (s.ToJSON R).Detail st).map (fun d => (d.Request.Method, d.Request.Consumes))
      = (s.Cases.find? (fun c => c.Status = st)).map (fun c => (c.Method, c.Consumes)) ∧
    (mapGet (s.ToJSON R).Detail st).map (fun d => d.Access)
      = ((s.Cases.filter (fun c => c.Status = st)).getLast?).map (fun c => c.Access) ∧
    (∀ (c : SchemeCase Value) (d : JSONSchemeDetail Item),
      mapGet (s.ToJSON R).Detail st = some d →
      (mapGet (({ s with cases := s.cases ++ [c] } : Scheme Value).ToJSON R).Detail st).map
          (fun d2 => (d2.Request.Method, d2.Request.Consumes))
        = some (d.Request.Method, d.Request.Consumes)) := by
  refine ⟨?_, ?_, ?_⟩
  · rw [ToJSON_Detail]
    exact detail_method_consumes_first R st s.cases
  · rw [ToJSON_Detail]
    exact detail_access_last R st s.cases
  · intro c d hd
    rw [ToJSON_Detail] at hd
    rw [ToJSON_Detail]
    show (detailAfter R st (s.cases ++ [c]) none).map _ = _
    rw [detailAfter_append, hd]
    obtain ⟨d2, e, e1, e2⟩ := detailAfter_some_Request R st [c] d
    rw [e, Option.map_some', e1, e2]

/-- C16 as amended, evaluated on `demoRecorded` with one more case of status
200 carrying the method PUT. -/
theorem C16_method_consumes_first_access_last_witness :
    (mapGet (({ demoRecorded with cases := demoRecorded.cases ++
        [{ Name := "ok3", Description := "", Access := "public", Status := 200,
           Method := "PUT", Consumes := "xml", Params := none,
           Headers := { Request := none, Response := none }, Body := none }] } :
        Scheme DemoValue).ToJSON demoReflection).Detail 200).map
      (fun d2 => (d2.Request.Method, d2.Request.Consumes)) = some ("GET", "json") := by
  cases hd : mapGet (demoRecorded.ToJSON demoReflection).Detail 200 with
  | none => exact absurd hd (by decide)
  | some d =>
    have h := (C16_method_consumes_first_access_last demoReflection demoRecorded 200).2.2
      { Name := "ok3", Description := "", Access := "public", Status := 200,
        Method := "PUT", Consumes := "xml", Params := none,
        Headers := { Request := none, Response := none }, Body := none } d hd
    rw [h]
    have e : (mapGet (demoRecorded.ToJSON demoReflection).Detail 200).map
        (fun d => (d.Request.Method, d.Request.Consumes)) = some ("GET", "json") := by decide
    rw [hd] at e
    exact e

/-! ### C17 -/

/-- C17 (catalogue monotonicity): a field name that is a key of the catalogue
of slot `k` in `Detail[st]` of the export of the cases `cs` is still a key of
that catalogue in the export of `cs` followed by one more case `c`. -/
theorem C17_catalogue_monotone (R : Reflection Value Item) (s : Scheme Value)
    (cs : List (SchemeCase Value)) (c : SchemeCase Value) (st : StatusType) (k : Slot)
    (d : JSONSchemeDetail Item) (n : String)
    (hd : mapGet (({ s with cases := cs } : Scheme Value).ToJSON R).Detail st = some d)
    (hn : n ∈ mapKeys (k.ofDetail d)) :
    ∃ d2, mapGet (({ s with cases := cs ++ [c] } : Scheme Value).ToJSON R).Detail st
        = some d2 ∧ n ∈ mapKeys (k.ofDetail d2) := by
  rw [ToJSON_Detail] at hd
  rw [ToJSON_Detail]
  show ∃ d2, detailAfter R st (cs ++ [c]) none = some d2 ∧ _
  have hd2 : detailAfter R st cs none = some d := hd
  rw [detailAfter_append, hd2]
  by_cases h : c.Status = st
  · refine ⟨stepDetail R c (some d), by simp [detailAfter, h], ?_⟩
    rw [← mapGet_isSome_iff] at hn ⊢
    rw [catalogueOf_stepDetail, caseItems_get, Option.isSome_or]
    simp only [catalogueOf, hn, Bool.or_true]
  · exact ⟨d, by simp [detailAfter, h], hn⟩

/-- C17 evaluated on the first two cases of `demoCases`: the body field id of
the first case of status 200 is still a key after the second one. -/
theorem C17_catalogue_monotone_witness :
    ∃ d2, mapGet (({ demoScheme with cases := demoCases.take 1 ++ [demoCases.get ⟨1, by decide⟩] } :
        Scheme DemoValue).ToJSON demoReflection).Detail 200 = some d2 ∧
      "id" ∈ mapKeys (Slot.Body.ofDetail d2) := by
  cases hd : mapGet (({ demoScheme with cases := demoCases.take 1 } :
      Scheme DemoValue).ToJSON demoReflection).Detail 200 with
  | none => exact absurd hd (by decide)
  | some d =>
    have e : (mapGet (({ demoScheme with cases := demoCases.take 1 } :
        Scheme DemoValue).ToJSON demoReflection).Detail 200).map
          (fun d => decide ("id" ∈ mapKeys (Slot.Body.ofDetail d))) = some true := by
      decide
    rw [hd] at e
    have hn : "id" ∈ mapKeys (Slot.Body.ofDetail d) := by simpa using e
    exact C17_catalogue_monotone demoReflection demoScheme (demoCases.take 1)
      (demoCases.get ⟨1, by decide⟩) 200 Slot.Body d "id" hd hn

/-! ### C18 -/

/-- C18 (statuses do not interfere): one more case `c` leaves the `Detail`
entry of every status other than `c.Status` as it was (present or not, with its
access rule, method, media type and four catalogues), and the exported cases of
the cases recorded before it as they were. -/
theorem C18_statuses_do_not_interfere (R : Reflection Value Item) (s : Scheme Value)
    (cs : List (SchemeCase Value)) (c : SchemeCase Value) (st : StatusType)
    (h : st ≠ c.Status) :
    mapGet (({ s with cases := cs ++ [c] } : Scheme Value).ToJSON R).Detail st
      = mapGet (({ s with cases := cs } : Scheme Value).ToJSON R).Detail st ∧
    ((({ s with cases := cs ++ [c] } : Scheme Value).ToJSON R).Cases).take cs.length
      = (({ s with cases := cs } : Scheme Value).ToJSON R).Cases := by
  refine ⟨?_, ?_⟩
  · rw [ToJSON_Detail, ToJSON_Detail]
    show detailAfter R st (cs ++ [c]) none = detailAfter R st cs none
    rw [detailAfter_append]
    have h2 : ¬ c.Status = st := fun e => h e.symm
    simp [detailAfter, h2]
  · rw [ToJSON_Cases, ToJSON_Cases]
    show ((cs ++ [c]).map _).take cs.length = cs.map _
    rw [List.map_append, List.take_append_of_le_length (by simp)]
    simp

/-- C18 evaluated on `demoCases`: the third case, of status 404, leaves the
entry of status 200 as the first two cases made it. -/
theorem C18_statuses_do_not_interfere_witness :
    mapGet (({ demoScheme with cases := demoCases.take 2 ++ [demoCases.get ⟨2, by decide⟩] } :
        Scheme DemoValue).ToJSON demoReflection).Detail 200
      = mapGet (({ demoScheme with cases := demoCases.take 2 } :
        Scheme DemoValue).ToJSON demoReflection).Detail 200 :=
  (C18_statuses_do_not_interfere demoReflection demoScheme (demoCases.take 2)
    (demoCases.get ⟨2, by decide⟩) 200 (by decide)).1

/-! ### Fields of the document the loop does not write -/

theorem toJSONStep_scalars (R : Reflection Value Item) (json : JSONScheme Value Item)
    (i : Nat) (c : SchemeCase Value) :
    (toJSONStep R json i c).URL = json.URL ∧ (toJSONStep R json i c).Name = json.Name ∧
      (toJSONStep R json i c).Project = json.Project ∧
      (toJSONStep R json i c).Description = json.Description :=
  ⟨rfl, rfl, rfl, rfl⟩

theorem toJSONLoop_scalars (R : Reflection Value Item) (cs : List (SchemeCase Value))
    (i : Nat) (json : JSONScheme Value Item) :
    (toJSONLoop R cs i json).URL = json.URL ∧ (toJSONLoop R cs i json).Name = json.Name ∧
      (toJSONLoop R cs i json).Project = json.Project ∧
      (toJSONLoop R cs i json).Description = json.Description := by
  induction cs generalizing i json with
  | nil => exact ⟨rfl, rfl, rfl, rfl⟩
  | cons c rest ih =>
    obtain ⟨h1, h2, h3, h4⟩ := ih (i + 1) (toJSONStep R json i c)
    obtain ⟨e1, e2, e3, e4⟩ := toJSONStep_scalars R json i c
    exact ⟨h1.trans e1, h2.trans e2, h3.trans e3, h4.trans e4⟩

/-! ### C19 -/

theorem call_descr_inside (s : Scheme Value) (p : Nat) (hp : s.activeCase = some p)
    (x : SetterCall Value) : (s.call x).descr = s.descr := by
  cases x <;>
    simp [Scheme.call, Scheme.URL, Scheme.Name, Scheme.Project, Scheme.Access,
      Scheme.Method, Scheme.Consumes, Scheme.Description, Scheme.Params,
      Scheme.RequestHeaders, Scheme.ResponseHeaders, Scheme.Body, hp]

theorem calls_descr_inside (calls : List (SetterCall Value)) (s : Scheme Value) (p : Nat)
    (hp : s.activeCase = some p) : (calls.foldl Scheme.call s).descr = s.descr := by
  induction calls generalizing s with
  | nil => rfl
  | cons x rest ih =>
    have h1 := call_sameOutside s p hp x
    exact (ih (s.call x) (h1.activeCase.trans hp)).trans (call_descr_inside s p hp x)

theorem call_descr_outside (s : Scheme Value) (h : s.activeCase = none)
    (x : SetterCall Value) :
    (s.call x).descr = lastDescription [TopCall.setter x] s.descr := by
  cases x <;>
    simp [Scheme.call, Scheme.URL, Scheme.Name, Scheme.Project, Scheme.Access,
      Scheme.Method, Scheme.Consumes, Scheme.Description, Scheme.Params,
      Scheme.RequestHeaders, Scheme.ResponseHeaders, Scheme.Body, h, lastDescription]

theorem lastDescription_cons (op : TopCall Value) (rest : List (TopCall Value))
    (d : String) :
    lastDescription (op :: rest) d = lastDescription rest (lastDescription [op] d) := by
  cases op with
  | case status name calls => rfl
  | setter x => cases x <;> rfl

theorem runTop_descr (ops : List (TopCall Value)) (s : Scheme Value) (hmu : s.mu = false)
    (ha : s.activeCase = none) :
    ∃ s2, runTop ops s = some s2 ∧ s2.descr = lastDescription ops s.descr := by
  induction ops generalizing s with
  | nil => exact ⟨s, rfl, rfl⟩
  | cons op rest ih =>
    rw [lastDescription_cons]
    cases op with
    | setter x =>
      obtain ⟨_, h2, h3⟩ := call_outside s ha x
      obtain ⟨s2, e1, e2⟩ := ih (s.call x) (h3.trans hmu) h2
      refine ⟨s2, e1, ?_⟩
      rw [e2, call_descr_outside s ha x]
    | case status name calls =>
      have hrun : s.Case status name (callback calls)
          = some (calls.foldl Scheme.call (s.caseOpen status name)).caseClose := by
        unfold Scheme.Case
        rw [hmu]
        rfl
      obtain ⟨s2, e1, e2⟩ :=
        ih (calls.foldl Scheme.call (s.caseOpen status name)).caseClose rfl rfl
      refine ⟨s2, ?_, ?_⟩
      · simp only [runTop, hrun]
        exact e1
      · rw [e2]
        have h := calls_descr_inside calls (s.caseOpen status name) s.cases.length rfl
        have h2 : (calls.foldl Scheme.call (s.caseOpen status name)).caseClose.descr
            = s.descr := h
        rw [h2]
        rfl

/-- C19 (description is not inherited): the case `Case` creates starts with
the empty Description whatever the scheme's description is; `Description(v)`
called while a case is active sets the Description of that case and leaves the
scheme's description unchanged; and after any sequence of top-level calls
(setters, and `Case` with callbacks made of setter calls) started with no
transaction open, `ToJSON().Description` is the argument of the last
`Description` call made outside a callback, or the description the scheme had
at the start when there is none. -/
theorem C19_description_not_inherited (R : Reflection Value Item) (s : Scheme Value) :
    (∀ (status : StatusType) (name : String),
      ∃ c, (s.caseOpen status name).active = some c ∧ c.Description = "") ∧
    (∀ (c : SchemeCase Value) (v : String), s.active = some c →
      (s.Description v).active = some { c with Description := v } ∧
      (s.Description v).descr = s.descr) ∧
    (s.ToJSON R).Description = s.descr ∧
    (s.mu = false → s.activeCase = none → ∀ ops : List (TopCall Value),
      ∃ s2, runTop ops s = some s2 ∧
        (s2.ToJSON R).Description = lastDescription ops s.descr) := by
  refine ⟨?_, ?_, ?_, ?_⟩
  · intro status name
    exact ⟨s.newCase status name, caseOpen_active s status name, rfl⟩
  · intro c v hc
    unfold Scheme.active at hc
    cases hp : s.activeCase with
    | none => simp [hp] at hc
    | some p =>
      rw [hp] at hc
      simp only [] at hc
      simp [Scheme.Description, Scheme.active, hp, modifyCase_getElem?_same, hc]
  · exact (toJSONLoop_scalars R s.cases 0 _).2.2.2
  · intro hmu ha ops
    obtain ⟨s2, e1, e2⟩ := runTop_descr ops s hmu ha
    exact ⟨s2, e1, ((toJSONLoop_scalars R s2.cases 0 _).2.2.2).trans e2⟩

/-- C19 evaluated on a program that sets the description, records a case whose
callback calls `Description`, and exports. -/
theorem C19_description_not_inherited_witness :
    ∃ s2, runTop [.setter (.Description "users"),
        .case 200 "ok" [.Description "the happy path"]] (Scheme.zero : Scheme DemoValue)
        = some s2 ∧
      (s2.ToJSON demoReflection).Description = "users" ∧
      s2.Cases.map (fun c => c.Description) = ["the happy path"] := by
  obtain ⟨s2, h1, h2⟩ :=
    (C19_description_not_inherited demoReflection (Scheme.zero : Scheme DemoValue)).2.2.2
      rfl rfl [.setter (.Description "users"), .case 200 "ok" [.Description "the happy path"]]
  refine ⟨s2, h1, h2, ?_⟩
  have e : runTop [.setter (.Description "users"),
      .case 200 "ok" [.Description "the happy path"]] (Scheme.zero : Scheme DemoValue)
      = some s2 := h1
  have e2 : (runTop [.setter (.Description "users"),
      .case 200 "ok" [.Description "the happy path"]] (Scheme.zero : Scheme DemoValue)).map
      (fun t => t.Cases.map (fun c => c.Description)) = some ["the happy path"] := by
    decide
  rw [e] at e2
  exact Option.some.inj e2

/-! ### C14 -/

theorem setReflectObjectMap_keys (R : Reflection Value Item) (v : Value) (n : String) :
    n ∈ mapKeys (setReflectObjectMap R [] (some v)).1
      ↔ ∃ it ∈ R.Nested (R.Get v), R.Name it = n := by
  rw [← mapGet_isSome_iff]
  show (mapGet ((R.Nested (R.Get v)).foldl (fun o item => mapSet o (R.Name item) item) []) n).isSome
    ↔ _
  rw [foldl_mapSet_get, Option.isSome_or, Bool.or_eq_true, lastNamed_isSome]
  simp [mapGet]

/-- C14 (end-to-end example): the calls URL("/users"), Method(GET),
Access(public), Case(200, "ok", Body(v)), Case(404, "missing", Access(admin))
on a fresh Scheme return, `v` being an example value whose reflected catalogue
has items named id and name; the export then has `Detail[200].Access` = public,
id and name among the keys of `Detail[200].Response.Body` (whose keys are the
names of the items of `v`), `Detail[404].Access` = admin, and two exported
cases, of status 200 and then 404. -/
theorem C14_end_to_end (R : Reflection Value Item) (v : Value)
    (hid : ∃ it ∈ R.Nested (R.Get v), R.Name it = "id")
    (hname : ∃ it ∈ R.Nested (R.Get v), R.Name it = "name") :
    ∃ s2 d200 d404, endToEnd v = some s2 ∧
      (s2.ToJSON R).URL = "/users" ∧
      mapGet (s2.ToJSON R).Detail 200 = some d200 ∧ d200.Access = "public" ∧
      d200.Request.Method = "GET" ∧
      "id" ∈ mapKeys d200.Response.Body ∧ "name" ∈ mapKeys d200.Response.Body ∧
      (∀ n, n ∈ mapKeys d200.Response.Body ↔ ∃ it ∈ R.Nested (R.Get v), R.Name it = n) ∧
      mapGet (s2.ToJSON R).Detail 404 = some d404 ∧ d404.Access = "admin" ∧
      (s2.ToJSON R).Cases.length = 2 ∧
      (s2.ToJSON R).Cases.map (fun oc => oc.map (fun c => (c.Status, c.Name)))
        = [some (200, "ok"), some (404, "missing")] := by
  have hkeys := setReflectObjectMap_keys R v
  refine ⟨_, _, _, rfl, ?_, rfl, rfl, rfl, ?_, ?_, ?_, rfl, rfl, ?_, ?_⟩
  · exact (toJSONLoop_scalars R _ 0 _).1
  · exact (hkeys "id").2 hid
  · exact (hkeys "name").2 hname
  · exact hkeys
  · rw [ToJSON_Cases]
    rfl
  · rw [ToJSON_Cases]
    rfl

/-- C14 evaluated with the small reflection service and the example record
with the fields id and name. -/
theorem C14_end_to_end_witness :
    ∃ s2 d200 d404, endToEnd [("id", 1), ("name", 1)] = some s2 ∧
      mapGet (s2.ToJSON demoReflection).Detail 200 = some d200 ∧ d200.Access = "public" ∧
      mapKeys d200.Response.Body = ["id", "name"] ∧
      mapGet (s2.ToJSON demoReflection).Detail 404 = some d404 ∧ d404.Access = "admin" ∧
      (s2.ToJSON demoReflection).Cases.length = 2 := by
  obtain ⟨s2, d200, d404, h1, _, h3, h4, _, _, _, _, h9, h10, h11, _⟩ :=
    C14_end_to_end demoReflection [("id", 1), ("name", 1)] (by decide) (by decide)
  refine ⟨s2, d200, d404, h1, h3, h4, ?_, h9, h10, h11⟩
  have e : ((endToEnd [("id", 1), ("name", 1)]).bind
      (fun t => mapGet (t.ToJSON demoReflection).Detail 200)).map
        (fun d => mapKeys d.Response.Body) = some ["id", "name"] := by decide
  rw [h1, Option.some_bind, h3] at e
  exact Option.some.inj e

/-! ### Export on the memory -/

theorem toJSONMemStep_some (R : Reflection Value Item) (m : ExportState Value Item)
    (i p : Nat) (c : SchemeCase Value) (h : m.heap[p]? = some c) :
    toJSONMemStep R m i p =
      { heap := m.heap ++ [exportCase R c]
        Detail := mapSet m.Detail c.Status (stepDetail R c (mapGet m.Detail c.Status))
        Cases := m.Cases.set i (some m.heap.length) } := by
  unfold toJSONMemStep
  rw [h]
  simp only [modifyCase_append_length, setReflectObjectMap_snd, exportCase, stepDetail]

theorem derefCases_grow (heap ex : List (SchemeCase Value)) (ptrs : List (Option Nat))
    (hv : ∀ q, some q ∈ ptrs → q < heap.length) :
    ptrs.map (fun op => op.bind (fun q => (heap ++ ex)[q]?))
      = ptrs.map (fun op => op.bind (fun q => heap[q]?)) := by
  apply List.map_congr_left
  intro op hop
  cases op with
  | none => rfl
  | some q => simp [List.getElem?_append_left (hv q hop)]

theorem toJSONMemLoop_spec (R : Reflection Value Item) (todo : List (SchemeCase Value))
    (i : Nat) (m : ExportState Value Item) (json : JSONScheme Value Item)
    (hd : m.Detail = json.Detail)
    (hc : m.Cases.map (fun op => op.bind (fun q => m.heap[q]?)) = json.Cases)
    (hv : ∀ q, some q ∈ m.Cases → q < m.heap.length)
    (ht : ∀ j, j < todo.length → m.heap[i + j]? = todo[j]?) :
    (∃ ex, (toJSONMemLoop R (List.range' i todo.length) i m).heap = m.heap ++ ex) ∧
    (toJSONMemLoop R (List.range' i todo.length) i m).Detail
      = (toJSONLoop R todo i json).Detail ∧
    (toJSONMemLoop R (List.range' i todo.length) i m).Cases.map
        (fun op => op.bind
          (fun q => (toJSONMemLoop R (List.range' i todo.length) i m).heap[q]?))
      = (toJSONLoop R todo i json).Cases := by
  induction todo generalizing i m json with
  | nil => exact ⟨⟨[], by simp [toJSONMemLoop]⟩, hd, hc⟩
  | cons c rest ih =>
    have h0 : m.heap[i]? = some c := by simpa using ht 0 (by simp)
    have hstep := toJSONMemStep_some R m i i c h0
    simp only [List.length_cons, List.range'_succ, toJSONMemLoop, toJSONLoop]
    have hheap : (toJSONMemStep R m i i).heap = m.heap ++ [exportCase R c] := by rw [hstep]
    have hd2 : (toJSONMemStep R m i i).Detail = (toJSONStep R json i c).Detail := by
      rw [hstep, toJSONStep_Detail, hd]
    have hc2 : (toJSONMemStep R m i i).Cases.map
        (fun op => op.bind (fun q => (toJSONMemStep R m i i).heap[q]?))
        = (toJSONStep R json i c).Cases := by
      rw [hheap, toJSONStep_Cases, ← hc]
      rw [hstep]
      simp only [List.map_set]
      rw [derefCases_grow m.heap [exportCase R c] m.Cases hv]
      simp
    have hv2 : ∀ q, some q ∈ (toJSONMemStep R m i i).Cases →
        q < (toJSONMemStep R m i i).heap.length := by
      intro q hq
      rw [hheap]
      rw [hstep] at hq
      rcases List.mem_or_eq_of_mem_set hq with h1 | h1
      · have := hv q h1
        simp
        omega
      · cases h1
        simp
    have ht2 : ∀ j, j < rest.length → (toJSONMemStep R m i i).heap[i + 1 + j]? = rest[j]? := by
      intro j hj
      have h1 := ht (j + 1) (by simp; omega)
      have h2 : i + (j + 1) < m.heap.length := by
        by_contra hcon
        rw [List.getElem?_eq_none (by omega)] at h1
        simp only [List.getElem?_cons_succ] at h1
        rw [List.getElem?_eq_getElem hj] at h1
        cases h1
      rw [hheap, show i + 1 + j = i + (j + 1) by omega, List.getElem?_append_left h2, h1]
      simp
    obtain ⟨⟨ex, e1⟩, e2, e3⟩ := ih (i + 1) (toJSONMemStep R m i i) (toJSONStep R json i c)
      hd2 hc2 hv2 ht2
    refine ⟨⟨exportCase R c :: ex, ?_⟩, e2, e3⟩
    rw [e1, hheap]
    simp

theorem JSONScheme.eq_of_fields (a b : JSONScheme Value Item) (h1 : a.URL = b.URL)
    (h2 : a.Name = b.Name) (h3 : a.Project = b.Project) (h4 : a.Description = b.Description)
    (h5 : a.Detail = b.Detail) (h6 : a.Cases = b.Cases) : a = b := by
  cases a
  cases b
  simp only [] at h1 h2 h3 h4 h5 h6
  subst h1 h2 h3 h4 h5 h6
  rfl

theorem exportMem_spec (R : Reflection Value Item) (s : Scheme Value) :
    (∃ ex, (s.exportMem R).heap = s.cases ++ ex) ∧
    (s.exportMem R).Detail = (s.ToJSON R).Detail ∧
    (s.exportMem R).Cases.map (fun op => op.bind (fun q => (s.exportMem R).heap[q]?))
      = (s.ToJSON R).Cases := by
  have h := toJSONMemLoop_spec R s.cases 0
    { heap := s.cases, Detail := [], Cases := List.replicate s.cases.length none }
    { URL := s.url, Name := s.name, Project := s.project, Description := s.descr,
      Detail := [], Cases := List.replicate s.cases.length none }
    rfl (by simp) (by simp) (by simp)
  exact h

/-! ### C12 -/

/-- C12 (export is read-only): `ToJSON` run on the memory leaves the Scheme as
it was, every field and every recorded case with its four example values (the
objects it writes to are allocated after the scheme's cases); the document it
returns is the one `ToJSON` computes from the state alone; so a second call
made right after the first returns an equal document. -/
theorem C12_export_read_only (R : Reflection Value Item) (s : Scheme Value) :
    (s.ToJSONMem R).1 = s ∧
    (∃ ex, (s.exportMem R).heap = s.cases ++ ex) ∧
    (s.ToJSONMem R).2 = s.ToJSON R ∧
    ((s.ToJSONMem R).1.ToJSONMem R).2 = (s.ToJSONMem R).2 := by
  obtain ⟨⟨ex, h1⟩, h2, h3⟩ := exportMem_spec R s
  have hs : (s.ToJSONMem R).1 = s := by
    show ({ s with cases := (s.exportMem R).heap.take s.cases.length } : Scheme Value) = s
    rw [h1, List.take_left]
  have hdoc : (s.ToJSONMem R).2 = s.ToJSON R := by
    obtain ⟨e1, e2, e3, e4⟩ := toJSONLoop_scalars R s.cases 0
      { URL := s.url, Name := s.name, Project := s.project, Description := s.descr,
        Detail := [], Cases := List.replicate s.cases.length none }
    exact JSONScheme.eq_of_fields _ _ e1.symm e2.symm e3.symm e4.symm h2 h3
  refine ⟨hs, ⟨ex, h1⟩, hdoc, ?_⟩
  rw [hs]

end Draft
